import Mathlib

/-!
# aws-ofi-nccl: tag layout, handle sizing, request/buffer bookkeeping

Shallow embedding of `include/nccl_ofi.h` (constants and data model) and of the
completion loop of `tests/nccl_message_transfer.c`, with the properties the
specification states about them.

Machine integers are natural numbers (or integers where a quantity is a C `int`)
taken modulo `2 ^ 64` where the C type is `uint64_t` / `unsigned long`.
-/

namespace NcclOfi

/-! ## Constants of `nccl_ofi.h` -/

/-- Width of `uint64_t` / `unsigned long` (LP64). -/
def UINT64_BITS : Nat := 64

/-- Truncation of a natural number to a `uint64_t` value. -/
def u64 (x : Nat) : Nat := x % 2 ^ UINT64_BITS

/-- Macro `MAX_EP_ADDR`, defined as `(56)`. -/
def MAX_EP_ADDR : Nat := 56

/-- Modelled from the spec: the size of the handle envelope, 64 bytes (spec 6: "a
64-byte envelope"). The comment above `MAX_EP_ADDR` names it ("We have a limit of
MAX_HANDLE_SIZE = 64 bytes"); the tests size their handle buffers with NCCL's
`NCCL_NET_HANDLE_MAXSIZE`, declared in NCCL's `nccl_net.h`, which is not part of this
repository. -/
def MAX_HANDLE_SIZE : Nat := 64

/-- Size `sizeof(uint64_t)`: the number of bytes of the `tag` field of a communicator. -/
def SIZEOF_TAG : Nat := UINT64_BITS / 8

/-- Macro `OFI_HIGHEST_TAG_BIT`, defined as `(0x1UL << 63)` and evaluated in
`unsigned long` (64 bits). -/
def OFI_HIGHEST_TAG_BIT : Nat := u64 (0x1 <<< 63)

/-- Macro `MIN_TAG_BITS_FOR_RING_ID`, defined as `(32 + 1)`. -/
def MIN_TAG_BITS_FOR_RING_ID : Nat := 32 + 1

/-- Macro `NCCL_OFI_MAX_REQUESTS`, defined as `256`. -/
def NCCL_OFI_MAX_REQUESTS : Nat := 256

/-- The control tag of ring `r`: `r | OFI_HIGHEST_TAG_BIT` in `uint64_t`. -/
def control_tag (r : Nat) : Nat := u64 (r ||| OFI_HIGHEST_TAG_BIT)

/-- Bitwise complement in `uint64_t`: `~x`. -/
def u64_not (x : Nat) : Nat := 2 ^ UINT64_BITS - 1 - u64 x

/-- Clearing the control bit of a tag: `t & ~OFI_HIGHEST_TAG_BIT` in `uint64_t`. -/
def clear_control_bit (t : Nat) : Nat := u64 (t &&& u64_not OFI_HIGHEST_TAG_BIT)

/-- The null pointer. -/
def NULL : Nat := 0

/-! ## Buffer pool: `stack_t` and `free_list_t` -/

/-- Record `typedef struct stack { int *array; int top; int size; } stack_t;` -/
structure stack_t where
  array : List Int
  top : Int
  size : Int
deriving DecidableEq, Repr

/-- Record `typedef struct free_list { void *buffers; stack_t *free_index; uint64_t size; }`;
`buffers` is kept as an address, the pointed-to stack is held by value. -/
structure free_list_t where
  buffers : Nat
  free_index : stack_t
  size : Nat
deriving DecidableEq, Repr

/-- The entries of a stack that are live: `array[0 .. top]`. -/
def stack_live (s : stack_t) : List Int := s.array.take (s.top + 1).toNat

/-- Modelled from the spec: the push of the index free-stack of a pool (the header
declares `stack_t` only; its operations are not among the sources). Spec 4.2:
"release(index) pushes the index back". The element is stored at `array[top + 1]`;
a full stack refuses the push. -/
def stack_push (s : stack_t) (elem : Int) : Option stack_t :=
  if s.top + 1 < s.size then
    some { s with array := s.array.set (s.top + 1).toNat elem, top := s.top + 1 }
  else none

/-- Modelled from the spec: the pop of the index free-stack of a pool (operations of
`stack_t` are not among the sources). Spec 4.2: "acquire() pops the free-stack;
returns none (not an error) when exhausted". An empty stack has `top = -1`. -/
def stack_pop (s : stack_t) : Option (Int × stack_t) :=
  if s.top < 0 then none
  else
    match s.array.get? s.top.toNat with
    | none => none
    | some e => some (e, { s with top := s.top - 1 })

/-- Modelled from the spec: creation of a pool of capacity `n` (not among the sources).
Spec 3: "addressed by an integer index in [0, capacity)", "capacity is fixed at
pool-creation time"; every index starts on the free stack. -/
def free_list_create (buffers : Nat) (n : Nat) : free_list_t :=
  { buffers := buffers
    free_index := { array := (List.range n).map Int.ofNat, top := (n : Int) - 1, size := n }
    size := n }

/-- Modelled from the spec: `acquire() -> Option<Index>` of a pool (not among the
sources). Spec 4.2: pops the free-stack, none when exhausted. -/
def free_list_acquire (fl : free_list_t) : Option (Int × free_list_t) :=
  match stack_pop fl.free_index with
  | none => none
  | some (i, s) => some (i, { fl with free_index := s })

/-- Modelled from the spec: `release(index)` of a pool (not among the sources).
Spec 4.2: "release(index) pushes the index back; double-release is a
programming-error invariant violation (must be defensively rejected ...)". An index
outside `[0, size)` or already on the free stack is rejected (`none`). -/
def free_list_release (fl : free_list_t) (index : Int) : Option free_list_t :=
  if index < 0 ∨ (fl.size : Int) ≤ index then none
  else if index ∈ stack_live fl.free_index then none
  else
    match stack_push fl.free_index index with
    | none => none
    | some s => some { fl with free_index := s }

/-- An operation a caller applies to a pool. -/
inductive pool_op where
  | acquire : pool_op
  | release (index : Int) : pool_op
deriving DecidableEq, Repr

/-- A pool together with the indices in use: those returned by an acquire and not
released since. -/
structure pool_run where
  pool : free_list_t
  in_use : List Int
deriving DecidableEq, Repr

/-- One caller operation. A failed acquire (pool exhausted) and a rejected release
leave everything as it is. -/
def pool_step (s : pool_run) : pool_op → pool_run
  | pool_op.acquire =>
    match free_list_acquire s.pool with
    | none => s
    | some (i, fl) => { pool := fl, in_use := i :: s.in_use }
  | pool_op.release index =>
    match free_list_release s.pool index with
    | none => s
    | some fl => { pool := fl, in_use := s.in_use.erase index }

/-- The state after a sequence of operations on a fresh pool of capacity `n`. -/
def pool_after (buffers n : Nat) (ops : List pool_op) : pool_run :=
  ops.foldl pool_step { pool := free_list_create buffers n, in_use := [] }
/-! ## Requests and communicators -/

/-- Enumeration `nccl_ofi_req_state_t`. -/
inductive nccl_ofi_req_state_t where
  | NCCL_OFI_REQ_CREATED
  | NCCL_OFI_REQ_PENDING
  | NCCL_OFI_REQ_COMPLETED
  | NCCL_OFI_REQ_ERROR
deriving DecidableEq, Repr

open nccl_ofi_req_state_t

/-- The integer value of a state enumerator (`NCCL_OFI_REQ_CREATED = 0`, then
consecutive). -/
def nccl_ofi_req_state_t.val : nccl_ofi_req_state_t → Nat
  | NCCL_OFI_REQ_CREATED => 0
  | NCCL_OFI_REQ_PENDING => 1
  | NCCL_OFI_REQ_COMPLETED => 2
  | NCCL_OFI_REQ_ERROR => 3

/-- Enumeration `nccl_ofi_req_direction_t`. An object of a C enumeration type holds
an integer: the field `direction` of a request holds 1 or 2 when one of the
enumerators was stored, and 0 in a zero-filled request. -/
abbrev nccl_ofi_req_direction_t := Nat

/-- Enumerator `NCCL_OFI_SEND = 1`. -/
def NCCL_OFI_SEND : nccl_ofi_req_direction_t := 1

/-- Enumerator `NCCL_OFI_RECV`, the successor of `NCCL_OFI_SEND`. -/
def NCCL_OFI_RECV : nccl_ofi_req_direction_t := NCCL_OFI_SEND + 1

/-- Record `listenComm_t`; `local_ep` is an address. -/
structure listenComm_t where
  tag : Nat
  local_ep : Nat
  dev : Int
  accepted : Bool
deriving DecidableEq, Repr

/-- Record `sendComm_t`; the two pools are held by value. -/
structure sendComm_t where
  dev : Int
  tag : Nat
  num_inflight_reqs : Nat
  remote_ep : Nat
  local_ep : Nat
  nccl_ofi_reqs_fl : free_list_t
  pending_reqs_fl : free_list_t
deriving DecidableEq, Repr

/-- Record `recvComm_t`; the pool is held by value. -/
structure recvComm_t where
  dev : Int
  tag : Nat
  num_inflight_reqs : Nat
  remote_ep : Nat
  local_ep : Nat
  nccl_ofi_reqs_fl : free_list_t
deriving DecidableEq, Repr

/-- Record `nccl_ofi_req_t`. The anonymous union
`union { listenComm_t *lComm; sendComm_t *sComm; recvComm_t *rComm; }` is one
pointer-sized cell, `comm`: its three members are three names of that cell.
`ctx` (a `struct fi_context`) is kept as one opaque value. -/
structure nccl_ofi_req_t where
  comm : Nat
  buffer_index : Nat
  ctx : Nat
  dev : Int
  size : Nat
  state : nccl_ofi_req_state_t
  direction : nccl_ofi_req_direction_t
deriving DecidableEq, Repr

/-- A request value used in examples: freshly created send request of device 0. -/
def req_sample : nccl_ofi_req_t :=
  { comm := 0, buffer_index := 0, ctx := 0, dev := 0, size := 0,
    state := NCCL_OFI_REQ_CREATED, direction := NCCL_OFI_SEND }

/-- The terminal states of a request. -/
def is_terminal : nccl_ofi_req_state_t → Bool
  | NCCL_OFI_REQ_COMPLETED => true
  | NCCL_OFI_REQ_ERROR => true
  | _ => false

/-- The events the engine applies to a request (spec 3, 4.3, 4.4, 4.5):
`post_accepted`, the fabric primitive accepted the post (first attempt, or a retry
from the queue); `post_deferred`, transient resource exhaustion, the post is parked
on the retry queue; `post_failed`, the fabric primitive failed permanently;
`completion bytes`, a completion event matched to the request, with the transferred
byte count; `completion_error`, a completion event reporting a fabric-level error. -/
inductive req_event where
  | post_accepted
  | post_deferred
  | post_failed
  | completion (bytes : Nat)
  | completion_error
deriving DecidableEq, Repr

/-- An event of the completion queue, as opposed to the result of a post. -/
def is_completion : req_event → Bool
  | req_event.completion _ => true
  | req_event.completion_error => true
  | _ => false

/-- Modelled from the spec: the request state machine (the engine functions that
update `nccl_ofi_req_t.state` and `.size` are not among the sources). Spec 3, table
of the lifecycle: Created exits to Pending (post succeeded) or stays Created (post
deferred); a permanent failure of the post goes "directly to Error" (4.3); Pending
exits to Completed (matching completion, which also sets the transferred-byte count)
or Error (the event reports a failure); Completed and Error are terminal. An event
with no transition from the current state leaves the request as it is. -/
def req_step (r : nccl_ofi_req_t) (e : req_event) : nccl_ofi_req_t :=
  match r.state, e with
  | NCCL_OFI_REQ_CREATED, req_event.post_accepted => { r with state := NCCL_OFI_REQ_PENDING }
  | NCCL_OFI_REQ_CREATED, req_event.post_deferred => r
  | NCCL_OFI_REQ_CREATED, req_event.post_failed => { r with state := NCCL_OFI_REQ_ERROR }
  | NCCL_OFI_REQ_PENDING, req_event.completion bytes =>
    { r with size := bytes, state := NCCL_OFI_REQ_COMPLETED }
  | NCCL_OFI_REQ_PENDING, req_event.completion_error => { r with state := NCCL_OFI_REQ_ERROR }
  | _, _ => r

/-- The states a request goes through under a sequence of events, the first one
included. -/
def req_trace (r : nccl_ofi_req_t) : List req_event → List nccl_ofi_req_state_t
  | [] => [r.state]
  | e :: es => r.state :: req_trace (req_step r e) es

/-- The number of positions of a sequence of states where a terminal state is
entered: the state before is not terminal and the state after is. -/
def terminal_entries : List nccl_ofi_req_state_t → Nat
  | a :: b :: rest =>
    (if is_terminal a = false ∧ is_terminal b = true then 1 else 0) + terminal_entries (b :: rest)
  | _ => 0

/-! ## Pending-retry queue -/

/-- Record `pending_req_t`; `nccl_ofi_req` and `data` are addresses. -/
structure pending_req_t where
  nccl_ofi_req : Nat
  data : Nat
  len : Nat
  type : Int
deriving DecidableEq, Repr

/-- Record `pending_reqs_q_elem_t`; `next` is the address of the next element,
`NULL` at the end of the list. -/
structure pending_reqs_q_elem_t where
  next : Nat
  buffer_index : Nat
  pending_req : pending_req_t
deriving DecidableEq, Repr

/-- Record `pending_reqs_q_t`: the addresses of the first and the last element. -/
structure pending_reqs_q_t where
  head : Nat
  tail : Nat
deriving DecidableEq, Repr

/-- Record `nccl_ofi_t`; handles and strings are addresses, the queue pointed to by
`pending_reqs_q` is held by value. -/
structure nccl_ofi_t where
  tag : Nat
  max_tag : Nat
  num_cqes : Nat
  prov_name : Nat
  fabric : Nat
  domain : Nat
  ep : Nat
  av : Nat
  cq : Nat
  pending_reqs_q : pending_reqs_q_t
deriving DecidableEq, Repr

/-- Modelled from the spec: `enqueue(entry)` of the pending-retry queue (the queue
functions are not among the sources; the header declares the list types only).
Spec 4.4: "enqueue(entry) appends at the tail". The element at address `p` becomes
the last one: its `next` is `NULL`, the former tail's `next` is `p`; on an empty
queue it is head and tail. -/
def enqueue (q : pending_reqs_q_t) (elems : Nat → pending_reqs_q_elem_t) (p : Nat) :
    pending_reqs_q_t × (Nat → pending_reqs_q_elem_t) :=
  let elems1 := Function.update elems p { elems p with next := NULL }
  if q.head = NULL then ({ head := p, tail := p }, elems1)
  else ({ q with tail := p }, Function.update elems1 q.tail { elems1 q.tail with next := p })

/-- Modelled from the spec: removal of the head entry of the pending-retry queue
(not among the sources). Spec 4.4: "on success, dequeues". The head moves to the
head's `next`; the tail is reset when the queue becomes empty. -/
def dequeue (q : pending_reqs_q_t) (elems : Nat → pending_reqs_q_elem_t) : pending_reqs_q_t :=
  let n := (elems q.head).next
  { head := n, tail := if n = NULL then NULL else q.tail }

/-- The result of posting an operation to the fabric primitive. -/
inductive post_result where
  | success
  | transient
  | permanent
deriving DecidableEq, Repr

/-- An entry of the queue as the logs record it: its address and its contents. -/
structure logged_entry where
  addr : Nat
  buffer_index : Nat
  pending_req : pending_req_t
deriving DecidableEq, Repr

/-- The engine state the queue lives in, with three logs: the entries in the order
they were enqueued, the entries in the order they were dequeued, and the repost
attempts, each with the number of dequeues done before it. -/
structure queue_run where
  nccl_ofi : nccl_ofi_t
  elems : Nat → pending_reqs_q_elem_t
  reqs : Nat → nccl_ofi_req_t
  enqueued : List logged_entry
  dequeued : List logged_entry
  attempts : List (logged_entry × Nat)

/-- An operation on the queue: parking a pending entry (stored at address `p`) after
a transient failure of its first post, or one `drain_once` whose repost of the head
gets the given result. -/
inductive queue_op where
  | park (p : Nat) (buffer_index : Nat) (pending_req : pending_req_t) : queue_op
  | drain (result : post_result) : queue_op
deriving DecidableEq, Repr

/-- The entries in the queue, by the logs: enqueued and not yet dequeued. -/
def queue_live (s : queue_run) : List logged_entry := s.enqueued.drop s.dequeued.length

/-- The entry `drain_once` would try to repost: the one at the head, if any. -/
def queue_front (s : queue_run) : Option logged_entry :=
  if s.nccl_ofi.pending_reqs_q.head = NULL then none
  else
    let e := s.elems s.nccl_ofi.pending_reqs_q.head
    some { addr := s.nccl_ofi.pending_reqs_q.head, buffer_index := e.buffer_index
           pending_req := e.pending_req }

/-- Modelled from the spec: parking an entry and `drain_once()` (not among the
sources). Spec 3: a pending entry captures the request, the buffer-slot index and
the payload descriptor. Spec 4.4: `drain_once()` "attempts to repost the head
entry; on success, dequeues and transitions its Request Created→Pending; on renewed
transient failure, stops"; "On permanent failure, dequeues and transitions the
Request to Error". -/
def queue_step (s : queue_run) : queue_op → queue_run
  | queue_op.park p buffer_index pending_req =>
    let elems0 := Function.update s.elems p
      { next := NULL, buffer_index := buffer_index, pending_req := pending_req }
    let r := enqueue s.nccl_ofi.pending_reqs_q elems0 p
    { s with
      nccl_ofi := { s.nccl_ofi with pending_reqs_q := r.1 }
      elems := r.2
      enqueued := s.enqueued ++
        [{ addr := p, buffer_index := buffer_index, pending_req := pending_req }] }
  | queue_op.drain result =>
    match queue_front s with
    | none => s
    | some b =>
      let tried := s.attempts ++ [(b, s.dequeued.length)]
      match result with
      | post_result.transient => { s with attempts := tried }
      | post_result.success =>
        { s with
          nccl_ofi := { s.nccl_ofi with
            pending_reqs_q := dequeue s.nccl_ofi.pending_reqs_q s.elems }
          reqs := Function.update s.reqs b.pending_req.nccl_ofi_req
            (req_step (s.reqs b.pending_req.nccl_ofi_req) req_event.post_accepted)
          dequeued := s.dequeued ++ [b]
          attempts := tried }
      | post_result.permanent =>
        { s with
          nccl_ofi := { s.nccl_ofi with
            pending_reqs_q := dequeue s.nccl_ofi.pending_reqs_q s.elems }
          reqs := Function.update s.reqs b.pending_req.nccl_ofi_req
            (req_step (s.reqs b.pending_req.nccl_ofi_req) req_event.post_failed)
          dequeued := s.dequeued ++ [b]
          attempts := tried }

/-- An operation the program can perform: a parked entry comes from the
pending-entry pool, so its address is not `NULL` and is not the address of an entry
that is still in the queue. -/
def queue_op_ok (s : queue_run) : queue_op → Bool
  | queue_op.park p _ _ => decide (p ≠ NULL) && decide (p ∉ (queue_live s).map logged_entry.addr)
  | queue_op.drain _ => true

/-- Every operation of the sequence is one the program can perform, in the state it
is applied to. -/
def queue_ops_ok (s : queue_run) : List queue_op → Bool
  | [] => true
  | op :: rest => queue_op_ok s op && queue_ops_ok (queue_step s op) rest

/-- The engine with an empty queue. -/
def queue_init (elems : Nat → pending_reqs_q_elem_t) (reqs : Nat → nccl_ofi_req_t) : queue_run :=
  { nccl_ofi := { tag := 0, max_tag := 0, num_cqes := 0, prov_name := NULL, fabric := NULL,
                  domain := NULL, ep := NULL, av := NULL, cq := NULL,
                  pending_reqs_q := { head := NULL, tail := NULL } }
    elems := elems, reqs := reqs, enqueued := [], dequeued := [], attempts := [] }

/-- The state after a sequence of operations on an empty queue. -/
def queue_after (elems : Nat → pending_reqs_q_elem_t) (reqs : Nat → nccl_ofi_req_t)
    (ops : List queue_op) : queue_run :=
  ops.foldl queue_step (queue_init elems reqs)

/-- The links of the list in memory: starting at address `h`, the elements are the
given entries, in this order, and the last one has `next = NULL`. -/
def q_chain (elems : Nat → pending_reqs_q_elem_t) : Nat → List logged_entry → Prop
  | h, [] => h = NULL
  | h, x :: rest =>
    h = x.addr ∧ h ≠ NULL ∧ (elems h).buffer_index = x.buffer_index ∧
    (elems h).pending_req = x.pending_req ∧ q_chain elems (elems h).next rest

/-- Memory contents used in examples: every element zeroed. -/
def elems_zero : Nat → pending_reqs_q_elem_t :=
  fun _ => { next := NULL, buffer_index := 0,
             pending_req := { nccl_ofi_req := NULL, data := NULL, len := 0, type := 0 } }

/-- A payload used in examples. -/
def pending_sample (req len : Nat) : pending_req_t :=
  { nccl_ofi_req := req, data := 4096, len := len, type := 1 }

/-- A sequence of queue operations used in examples: two entries parked, a repost
that fails transiently, then reposts that succeed or fail permanently, with the
address 8 reused after its entry left the queue. -/
def queue_ops_sample : List queue_op :=
  [queue_op.park 8 0 (pending_sample 100 1), queue_op.park 16 1 (pending_sample 200 2),
   queue_op.drain post_result.transient, queue_op.drain post_result.success,
   queue_op.park 8 0 (pending_sample 300 3), queue_op.drain post_result.permanent,
   queue_op.drain post_result.success]

/-! ## The message-transfer test: posting and the completion loop of `main` -/

/-- One call `extNet->test((void *)req[idx], &done, &received_size)` as the log
records it: the index, the request pointer passed, and the value left in `done`. -/
structure test_call where
  idx : Nat
  request : Nat
  done : Int
deriving DecidableEq, Repr

/-- The variables of `main` the completion loop works on, and the log of the calls
of `test`. -/
structure test_state where
  req : List Nat
  req_completed : List Int
  inflight_reqs : Int
  idx : Nat
  tested : List test_call
deriving DecidableEq, Repr

/-- The posting part of `main`. `req` is initialised to all `NULL`; rank 0 runs
`for (idx = 0; idx < NUM_REQUESTS; idx++) isend(..., &req[idx])`, rank 1 the same
with `irecv`, any other rank posts nothing. `isend idx` and `irecv idx` are the
values the calls leave in `req[idx]`. `NUM_REQUESTS` comes from `test-common.h` and
is a parameter. -/
def post_requests (rank : Int) (NUM_REQUESTS : Nat) (isend irecv : Nat → Nat) : List Nat :=
  let req := List.replicate NUM_REQUESTS NULL
  if rank = 0 then
    (List.range NUM_REQUESTS).foldl (fun r idx => r.set idx (isend idx)) req
  else if rank = 1 then
    (List.range NUM_REQUESTS).foldl (fun r idx => r.set idx (irecv idx)) req
  else req

/-- The state of `main` when the completion loop starts:
`req_completed[NUM_REQUESTS] = {0}`, `inflight_reqs = NUM_REQUESTS`. -/
def test_init (rank : Int) (NUM_REQUESTS : Nat) (isend irecv : Nat → Nat) : test_state :=
  { req := post_requests rank NUM_REQUESTS isend irecv
    req_completed := List.replicate NUM_REQUESTS 0
    inflight_reqs := NUM_REQUESTS
    idx := 0
    tested := [] }

/-- The call of `test` made at the current index: on `req[idx]`, with the value the
call leaves in `done`. -/
def next_call (answers : Nat → Int) (s : test_state) : test_call :=
  { idx := s.idx, request := s.req.getD s.idx NULL, done := answers s.tested.length }

/-- The body of the `for` loop, followed by `idx++`. `answers k` is the value the
`k`-th call of `test` (counted from 0) leaves in `done`. -/
def loop_body (answers : Nat → Int) (s : test_state) : test_state :=
  if s.req_completed.getD s.idx 0 ≠ 0 then { s with idx := s.idx + 1 }
  else
    let call := next_call answers s
    if call.done ≠ 0 then
      { s with
        inflight_reqs := s.inflight_reqs - 1
        req_completed := s.req_completed.set s.idx 1
        idx := s.idx + 1
        tested := s.tested ++ [call] }
    else { s with idx := s.idx + 1, tested := s.tested ++ [call] }

/-- The loop leaves through `break`: the `for` loop is over and
`inflight_reqs == 0`. -/
def loop_exits (NUM_REQUESTS : Nat) (s : test_state) : Bool :=
  decide (NUM_REQUESTS ≤ s.idx) && decide (s.inflight_reqs = 0)

/-- One step of `while (true) { for (...) {...} if (inflight_reqs == 0) break; }`
that does not leave the loop: an iteration of the `for` loop, or the start of the
next pass (`idx = 0`). -/
def loop_step (NUM_REQUESTS : Nat) (answers : Nat → Int) (s : test_state) : test_state :=
  if s.idx < NUM_REQUESTS then loop_body answers s else { s with idx := 0 }

/-- The state after `t` steps of the loop started in `s`; `none` once the loop has
been left. -/
def loop_states (NUM_REQUESTS : Nat) (answers : Nat → Int) (s : test_state) :
    Nat → Option test_state
  | 0 => some s
  | t + 1 =>
    match loop_states NUM_REQUESTS answers s t with
    | none => none
    | some s' =>
      if loop_exits NUM_REQUESTS s' then none else some (loop_step NUM_REQUESTS answers s')

/-- The number of entries of `req_completed` that are set. -/
def num_set (l : List Int) : Nat := (l.filter (fun x => decide (x ≠ 0))).length

/-- The calls of the log that reported request `i` done. -/
def done_calls (i : Nat) (l : List test_call) : List test_call :=
  l.filter (fun c => decide (c.idx = i) && decide (c.done ≠ 0))

/-! ## The completion loop, statement by statement -/

/-- The points of the completion loop of `main`, one per statement or test:
`for_init` is `idx = 0` (the start of a pass of `while (true)`), `for_cond` is
`idx < NUM_REQUESTS`, `if_completed` is `if (req_completed[idx]) continue;`,
`call_test` is `extNet->test((void *)req[idx], &done, &received_size);`, `if_done`
is `if (done)`, `decrement` is `inflight_reqs--;`, `set_completed` is
`req_completed[idx] = 1;`, `for_incr` is `idx++`, `while_check` is
`if (inflight_reqs == 0) break;`, and `after_loop` is the statement after the loop. -/
inductive loop_pc where
  | for_init
  | for_cond
  | if_completed
  | call_test
  | if_done
  | decrement
  | set_completed
  | for_incr
  | while_check
  | after_loop
deriving DecidableEq, Repr

/-- The state of `main` at a point of the completion loop: the variables the loop
works on, the variable `done`, and the statement about to be executed. -/
structure loop_point where
  vars : test_state
  done : Int
  pc : loop_pc
deriving DecidableEq, Repr

/-- The execution of the statement at the current point. `continue` goes to `idx++`;
`break` goes to `after_loop`, where nothing of the loop runs any more. `answers k` is
the value the `k`-th call of `test` (counted from 0) leaves in `done`. -/
def point_step (NUM_REQUESTS : Nat) (answers : Nat → Int) (p : loop_point) : loop_point :=
  match p.pc with
  | loop_pc.for_init => { p with vars := { p.vars with idx := 0 }, pc := loop_pc.for_cond }
  | loop_pc.for_cond =>
    if p.vars.idx < NUM_REQUESTS then { p with pc := loop_pc.if_completed }
    else { p with pc := loop_pc.while_check }
  | loop_pc.if_completed =>
    if p.vars.req_completed.getD p.vars.idx 0 ≠ 0 then { p with pc := loop_pc.for_incr }
    else { p with pc := loop_pc.call_test }
  | loop_pc.call_test =>
    { vars := { p.vars with tested := p.vars.tested ++ [next_call answers p.vars] }
      done := (next_call answers p.vars).done
      pc := loop_pc.if_done }
  | loop_pc.if_done =>
    if p.done ≠ 0 then { p with pc := loop_pc.decrement } else { p with pc := loop_pc.for_incr }
  | loop_pc.decrement =>
    { p with vars := { p.vars with inflight_reqs := p.vars.inflight_reqs - 1 }
             pc := loop_pc.set_completed }
  | loop_pc.set_completed =>
    { p with vars := { p.vars with req_completed := p.vars.req_completed.set p.vars.idx 1 }
             pc := loop_pc.for_incr }
  | loop_pc.for_incr =>
    { p with vars := { p.vars with idx := p.vars.idx + 1 }, pc := loop_pc.for_cond }
  | loop_pc.while_check =>
    if p.vars.inflight_reqs = 0 then { p with pc := loop_pc.after_loop }
    else { p with pc := loop_pc.for_init }
  | loop_pc.after_loop => p

/-- The point reached from `p` after `t` statements. -/
def point_run (NUM_REQUESTS : Nat) (answers : Nat → Int) (p : loop_point) : Nat → loop_point
  | 0 => p
  | t + 1 => point_step NUM_REQUESTS answers (point_run NUM_REQUESTS answers p t)

/-- The point at which the completion loop is entered; `done0` is the value of the
uninitialised variable `done`. -/
def point_init (rank : Int) (NUM_REQUESTS : Nat) (isend irecv : Nat → Nat) (done0 : Int) :
    loop_point :=
  { vars := test_init rank NUM_REQUESTS isend irecv, done := done0, pc := loop_pc.for_init }

/-- The points inside the body of the `for` loop. -/
def pc_in_body : loop_pc → Bool
  | loop_pc.if_completed => true
  | loop_pc.call_test => true
  | loop_pc.if_done => true
  | loop_pc.decrement => true
  | loop_pc.set_completed => true
  | loop_pc.for_incr => true
  | _ => false

/-- The points of the body that are only reached when `req_completed[idx]` is 0 and
before it is set. -/
def pc_unset : loop_pc → Bool
  | loop_pc.call_test => true
  | loop_pc.if_done => true
  | loop_pc.decrement => true
  | loop_pc.set_completed => true
  | _ => false

/-- The points between a call of `test` that answered done and the assignment
`req_completed[idx] = 1` that records it: `if (done)` with `done` different from 0,
`inflight_reqs--`, and `req_completed[idx] = 1` itself. -/
def pc_pending : loop_pc → Int → Bool
  | loop_pc.if_done, done => decide (done ≠ 0)
  | loop_pc.decrement, _ => true
  | loop_pc.set_completed, _ => true
  | _, _ => false

/-- The point lies between an answer done and the assignment that records it. -/
def answer_pending (p : loop_point) : Bool := pc_pending p.pc p.done

/-- The number of decrements of `inflight_reqs` not yet followed by the assignment
`req_completed[idx] = 1`: 1 at `set_completed`, 0 elsewhere. -/
def count_lag : loop_pc → Int
  | loop_pc.set_completed => 1
  | _ => 0

/-- The number of values different from 0 in a list of values of `done`. -/
def count_done (l : List Int) : Nat := l.countP (fun d => decide (d ≠ 0))

/-- The number of done answers among the first `k` answers of `test`. -/
def done_count (answers : Nat → Int) (k : Nat) : Nat := count_done ((List.range k).map answers)

/-- Request `i` has been reported done: the log has a call of `test` on index `i` that
left a value different from 0 in `done`. -/
def reported_done (l : List test_call) (i : Nat) : Prop := ∃ c ∈ l, c.idx = i ∧ c.done ≠ 0

/-! ## Invariants used in the proofs -/

/-- The invariant of a pool of capacity `n` with its in-use indices: the live part
of the free stack together with the in-use indices is a rearrangement of `0 .. n-1`. -/
structure pool_inv (n : Nat) (s : pool_run) : Prop where
  size_eq : s.pool.size = n
  stack_size : s.pool.free_index.size = n
  array_len : s.pool.free_index.array.length = n
  top_lo : -1 ≤ s.pool.free_index.top
  top_hi : s.pool.free_index.top < n
  perm : (stack_live s.pool.free_index ++ s.in_use).Perm ((List.range n).map Int.ofNat)

/-- The invariant tying the linked list in memory to the logs. -/
structure queue_inv (s : queue_run) : Prop where
  deq_order : s.dequeued = s.enqueued.take s.dequeued.length
  nodup : ((queue_live s).map logged_entry.addr).Nodup
  chain : q_chain s.elems s.nccl_ofi.pending_reqs_q.head (queue_live s)
  tail_ok : ∀ x ∈ (queue_live s).getLast?, s.nccl_ofi.pending_reqs_q.tail = x.addr
  tried : ∀ a ∈ s.attempts, a.2 ≤ s.dequeued.length ∧ s.enqueued.get? a.2 = some a.1

/-- The invariant of the completion loop. -/
structure loop_inv (NUM_REQUESTS : Nat) (req : List Nat) (s : test_state) : Prop where
  req_eq : s.req = req
  len : s.req_completed.length = NUM_REQUESTS
  idx_le : s.idx ≤ NUM_REQUESTS
  count : s.inflight_reqs = (NUM_REQUESTS : Int) - (num_set s.req_completed : Int)
  flags : ∀ i, i < NUM_REQUESTS →
    (s.req_completed.getD i 0 ≠ 0 ↔ ∃ c ∈ s.tested, c.idx = i ∧ c.done ≠ 0)
  once : ∀ i, (done_calls i s.tested).length ≤ 1
  calls : ∀ c ∈ s.tested, c.idx < NUM_REQUESTS ∧ c.request = req.getD c.idx NULL

/-- The invariant of the completion loop at every point. -/
structure point_inv (NUM_REQUESTS : Nat) (req : List Nat) (answers : Nat → Int)
    (p : loop_point) : Prop where
  req_eq : p.vars.req = req
  len : p.vars.req_completed.length = NUM_REQUESTS
  idx_le : p.vars.idx ≤ NUM_REQUESTS
  idx_lt : pc_in_body p.pc = true → p.vars.idx < NUM_REQUESTS
  count : p.vars.inflight_reqs + count_lag p.pc
    = (NUM_REQUESTS : Int) - (num_set p.vars.req_completed : Int)
  tie : p.vars.tested.map test_call.done = (List.range p.vars.tested.length).map answers
  calls : ∀ c ∈ p.vars.tested, c.idx < NUM_REQUESTS ∧ c.request = req.getD c.idx NULL
  once : ∀ i, (done_calls i p.vars.tested).length ≤ 1
  flags : ∀ i, i < NUM_REQUESTS →
    (reported_done p.vars.tested i ↔
      (p.vars.req_completed.getD i 0 ≠ 0 ∨ (i = p.vars.idx ∧ answer_pending p = true)))
  unset : pc_unset p.pc = true → p.vars.req_completed.getD p.vars.idx 0 = 0
  log_count : count_done (p.vars.tested.map test_call.done)
    = num_set p.vars.req_completed + (if answer_pending p = true then 1 else 0)
  exited : p.pc = loop_pc.after_loop → p.vars.inflight_reqs = 0

/-! # Theorems -/

/-! ## Helper lemmas on tags -/

theorem highest_tag_bit_eq : OFI_HIGHEST_TAG_BIT = 2 ^ 63 := by decide

theorem lt_of_bit63_clear {r : Nat} (h64 : r < 2 ^ 64) (hb : r.testBit 63 = false) :
    r < 2 ^ 63 := by
  apply Nat.lt_pow_two_of_testBit
  intro i hi
  rcases Nat.eq_or_lt_of_le hi with h | h
  · rw [← h]; exact hb
  · apply Nat.testBit_lt_two_pow
    calc r < 2 ^ 64 := h64
      _ ≤ 2 ^ i := Nat.pow_le_pow_right (by decide) h

theorem or_highest_lt {r : Nat} (h : r < 2 ^ 63) : r ||| 2 ^ 63 < 2 ^ 64 := by
  apply Nat.or_lt_two_pow
  · exact lt_trans h (by decide)
  · decide

theorem control_tag_eq {r : Nat} (h : r < 2 ^ 63) : control_tag r = r ||| 2 ^ 63 := by
  unfold control_tag u64 UINT64_BITS
  rw [highest_tag_bit_eq]
  exact Nat.mod_eq_of_lt (or_highest_lt h)

theorem control_tag_bit63 {r : Nat} (h : r < 2 ^ 63) : (control_tag r).testBit 63 = true := by
  rw [control_tag_eq h, Nat.testBit_or, Nat.testBit_two_pow_self, Bool.or_true]

theorem clear_control_bit_eq (t : Nat) : clear_control_bit t = t % 2 ^ 63 := by
  have hm : u64_not OFI_HIGHEST_TAG_BIT = 2 ^ 63 - 1 := by decide
  unfold clear_control_bit
  rw [hm, Nat.and_pow_two_sub_one_eq_mod]
  unfold u64 UINT64_BITS
  exact Nat.mod_eq_of_lt (lt_trans (Nat.mod_lt _ (by decide)) (by decide))

theorem clear_control_tag {r : Nat} (h : r < 2 ^ 63) : clear_control_bit (control_tag r) = r := by
  rw [clear_control_bit_eq, control_tag_eq h]
  apply Nat.eq_of_testBit_eq
  intro i
  rw [Nat.testBit_mod_two_pow, Nat.testBit_or, Nat.testBit_two_pow]
  by_cases hi : i < 63
  · have : ¬ (63 = i) := by omega
    simp [hi, this]
  · have : r.testBit i = false := by
      apply Nat.testBit_lt_two_pow
      exact lt_of_lt_of_le h (Nat.pow_le_pow_right (by decide) (by omega))
    simp [hi, this]

/-! ## Claims on the constants -/

/-- C1: `OFI_HIGHEST_TAG_BIT`, as a 64-bit unsigned value, is `2 ^ 63`: bit 63 is set
and no other bit is. For every 64-bit ring identifier `r` with bit 63 clear, the
control tag `r | OFI_HIGHEST_TAG_BIT` differs from every 64-bit data tag `d` with
bit 63 clear, and clearing bit 63 of the control tag gives back `r`. -/
theorem C1_control_bit_separates_tags :
    OFI_HIGHEST_TAG_BIT = 2 ^ 63 ∧
    (∀ i : Nat, OFI_HIGHEST_TAG_BIT.testBit i = decide (i = 63)) ∧
    (∀ r d : Nat, r < 2 ^ 64 → d < 2 ^ 64 → r.testBit 63 = false → d.testBit 63 = false →
      control_tag r ≠ d ∧ clear_control_bit (control_tag r) = r) := by
  refine ⟨highest_tag_bit_eq, ?_, ?_⟩
  · intro i
    rw [highest_tag_bit_eq, Nat.testBit_two_pow]
    by_cases h : i = 63
    · simp [h]
    · have : ¬ (63 = i) := fun e => h e.symm
      simp [h, this]
  · intro r d hr _ hbr hbd
    have hlt := lt_of_bit63_clear hr hbr
    refine ⟨?_, clear_control_tag hlt⟩
    intro he
    have h1 := control_tag_bit63 hlt
    rw [he, hbd] at h1
    exact Bool.false_ne_true h1

/-- Witness for C1 at ring identifier 5 and data tag 5. -/
theorem C1_control_bit_separates_tags_witness :
    control_tag 5 ≠ 5 ∧ clear_control_bit (control_tag 5) = 5 :=
  C1_control_bit_separates_tags.2.2 5 5 (by decide) (by decide) (by decide) (by decide)

/-- C2: the endpoint-address part of a handle is bounded by `MAX_EP_ADDR = 56` bytes;
with the 8 bytes of the 64-bit tag this is exactly the 64-byte handle limit, so an
address of any length up to `MAX_EP_ADDR` plus a tag fits in the handle. -/
theorem C2_handle_budget :
    MAX_EP_ADDR = 56 ∧ SIZEOF_TAG = 8 ∧ MAX_EP_ADDR + SIZEOF_TAG = MAX_HANDLE_SIZE ∧
    MAX_HANDLE_SIZE = 64 ∧
    (∀ len : Nat, len ≤ MAX_EP_ADDR → len + SIZEOF_TAG ≤ MAX_HANDLE_SIZE) := by
  refine ⟨rfl, rfl, rfl, rfl, ?_⟩
  intro len h
  have h1 : MAX_EP_ADDR + SIZEOF_TAG = MAX_HANDLE_SIZE := rfl
  omega

/-- Witness for C2 at the full address length 56. -/
theorem C2_handle_budget_witness : 56 + SIZEOF_TAG ≤ MAX_HANDLE_SIZE :=
  C2_handle_budget.2.2.2.2 56 (by decide)

/-- C8: `MIN_TAG_BITS_FOR_RING_ID` is 33 = 32 ring-identifier bits + 1 control bit, so
the minimum width names `2 ^ 32` rings, and it fits in a 64-bit tag. -/
theorem C8_min_tag_bits :
    MIN_TAG_BITS_FOR_RING_ID = 33 ∧ MIN_TAG_BITS_FOR_RING_ID = 32 + 1 ∧
    2 ^ (MIN_TAG_BITS_FOR_RING_ID - 1) = 2 ^ 32 ∧ 2 ^ 32 ≤ 2 ^ (MIN_TAG_BITS_FOR_RING_ID - 1) ∧
    MIN_TAG_BITS_FOR_RING_ID ≤ UINT64_BITS := by
  decide

/-! ## Buffer pool: representation invariant -/

theorem take_succ_set {α : Type} (l : List α) (k : Nat) (a : α) (h : k < l.length) :
    (l.set k a).take (k + 1) = l.take k ++ [a] := by
  induction l generalizing k with
  | nil => simp at h
  | cons x xs ih =>
    cases k with
    | zero => simp
    | succ k =>
      simp only [List.set_cons_succ, List.take_succ_cons, List.cons_append, List.cons.injEq,
        true_and]
      exact ih k (by simpa using h)

theorem stack_live_length (n : Nat) (s : pool_run) (h : pool_inv n s) :
    ((stack_live s.pool.free_index).length : Int) = s.pool.free_index.top + 1 := by
  have h1 := h.array_len
  have h2 := h.top_lo
  have h3 := h.top_hi
  unfold stack_live
  rw [List.length_take]
  omega

theorem pool_inv_counts (n : Nat) (s : pool_run) (h : pool_inv n s) :
    (stack_live s.pool.free_index).length + s.in_use.length = n := by
  have := h.perm.length_eq
  simpa using this

theorem pool_inv_mem (n : Nat) (s : pool_run) (h : pool_inv n s) (i : Int) :
    (i ∈ stack_live s.pool.free_index ∨ i ∈ s.in_use) ↔ (0 ≤ i ∧ i < n) := by
  have := h.perm.mem_iff (a := i)
  rw [List.mem_append] at this
  rw [this, List.mem_map]
  constructor
  · rintro ⟨k, hk, rfl⟩
    have := List.mem_range.mp hk
    constructor
    · exact Int.ofNat_nonneg k
    · exact Int.ofNat_lt.mpr this
  · rintro ⟨h0, h1⟩
    refine ⟨i.toNat, List.mem_range.mpr (by omega), ?_⟩
    show ((i.toNat : Nat) : Int) = i
    omega

theorem pool_inv_nodup (n : Nat) (s : pool_run) (h : pool_inv n s) :
    (stack_live s.pool.free_index ++ s.in_use).Nodup := by
  rw [h.perm.nodup_iff]
  apply List.Nodup.map _ (List.nodup_range n)
  intro a b hab
  exact Int.ofNat.inj hab

theorem pool_inv_create (buffers n : Nat) :
    pool_inv n { pool := free_list_create buffers n, in_use := [] } := by
  refine ⟨rfl, rfl, ?_, ?_, ?_, ?_⟩
  · simp [free_list_create]
  · simp [free_list_create]
  · simp [free_list_create]
  · have hl : ((List.range n).map Int.ofNat).length = n := by simp
    have : stack_live (free_list_create buffers n).free_index
        = (List.range n).map Int.ofNat := by
      unfold stack_live free_list_create
      simp only
      apply List.take_of_length_le
      rw [hl]; omega
    simp [this]

/-- What a successful acquire does to the free stack. -/
theorem acquire_spec (n : Nat) (s : pool_run) (h : pool_inv n s) (i : Int) (fl : free_list_t)
    (ha : free_list_acquire s.pool = some (i, fl)) :
    stack_live s.pool.free_index = stack_live fl.free_index ++ [i] ∧
    fl.size = s.pool.size ∧ fl.free_index.size = s.pool.free_index.size ∧
    fl.free_index.array = s.pool.free_index.array ∧
    fl.free_index.top = s.pool.free_index.top - 1 ∧ 0 ≤ s.pool.free_index.top := by
  have hlen := h.array_len
  have hhi := h.top_hi
  unfold free_list_acquire stack_pop at ha
  by_cases ht : s.pool.free_index.top < 0
  · simp [ht] at ha
  · rw [if_neg ht] at ha
    have hlt : s.pool.free_index.top.toNat < s.pool.free_index.array.length := by omega
    have hget : s.pool.free_index.array.get? s.pool.free_index.top.toNat
        = some (s.pool.free_index.array[s.pool.free_index.top.toNat]) := by
      simp [List.getElem?_eq_getElem hlt]
    rw [hget] at ha
    simp only [Option.some.injEq, Prod.mk.injEq] at ha
    obtain ⟨hi, hfl⟩ := ha
    subst hfl
    refine ⟨?_, rfl, rfl, rfl, rfl, by omega⟩
    unfold stack_live
    simp only
    have e1 : (s.pool.free_index.top + 1).toNat = s.pool.free_index.top.toNat + 1 := by omega
    have e2 : (s.pool.free_index.top - 1 + 1).toNat = s.pool.free_index.top.toNat := by omega
    rw [e1, e2, List.take_succ, List.getElem?_eq_getElem hlt, hi]
    rfl

/-- An acquire succeeds exactly when the free stack is not empty. -/
theorem acquire_isSome (n : Nat) (s : pool_run) (h : pool_inv n s)
    (ht : 0 ≤ s.pool.free_index.top) : (free_list_acquire s.pool).isSome = true := by
  have hlen := h.array_len
  have hhi := h.top_hi
  have hlt : s.pool.free_index.top.toNat < s.pool.free_index.array.length := by omega
  unfold free_list_acquire stack_pop
  rw [if_neg (by omega)]
  simp [List.getElem?_eq_getElem hlt]

/-- What a successful release does to the free stack. -/
theorem release_spec (n : Nat) (s : pool_run) (h : pool_inv n s) (i : Int) (fl : free_list_t)
    (hr : free_list_release s.pool i = some fl) :
    stack_live fl.free_index = stack_live s.pool.free_index ++ [i] ∧
    i ∉ stack_live s.pool.free_index ∧ 0 ≤ i ∧ i < n ∧
    fl.size = s.pool.size ∧ fl.free_index.size = s.pool.free_index.size ∧
    fl.free_index.array.length = s.pool.free_index.array.length ∧
    fl.free_index.top = s.pool.free_index.top + 1 ∧
    s.pool.free_index.top + 1 < s.pool.free_index.size := by
  have hlen := h.array_len
  have hlo := h.top_lo
  have hsz := h.size_eq
  have hss := h.stack_size
  unfold free_list_release at hr
  by_cases hrange : i < 0 ∨ (s.pool.size : Int) ≤ i
  · simp [hrange] at hr
  · rw [if_neg hrange] at hr
    by_cases hmem : i ∈ stack_live s.pool.free_index
    · simp [hmem] at hr
    · rw [if_neg hmem] at hr
      unfold stack_push at hr
      by_cases hfull : s.pool.free_index.top + 1 < s.pool.free_index.size
      · rw [if_pos hfull] at hr
        simp only [Option.some.injEq] at hr
        subst hr
        have hi0 : 0 ≤ i := by omega
        have hin : i < (n : Int) := by omega
        refine ⟨?_, hmem, hi0, hin, rfl, rfl, by simp, rfl, hfull⟩
        unfold stack_live
        simp only
        have hlt : (s.pool.free_index.top + 1).toNat < s.pool.free_index.array.length := by omega
        have e1 : (s.pool.free_index.top + 1 + 1).toNat
            = (s.pool.free_index.top + 1).toNat + 1 := by omega
        rw [e1]
        exact take_succ_set _ _ _ hlt
      · simp [hfull] at hr

theorem pool_inv_step (n : Nat) (s : pool_run) (h : pool_inv n s) (op : pool_op) :
    pool_inv n (pool_step s op) := by
  cases op with
  | acquire =>
    cases ha : free_list_acquire s.pool with
    | none =>
      have e : pool_step s pool_op.acquire = s := by simp only [pool_step, ha]
      rw [e]; exact h
    | some r =>
      obtain ⟨i, fl⟩ := r
      have e : pool_step s pool_op.acquire = { pool := fl, in_use := i :: s.in_use } := by
        simp only [pool_step, ha]
      rw [e]
      obtain ⟨hl, h1, h2, h3, h4, h5⟩ := acquire_spec n s h i fl ha
      have hhi := h.top_hi
      refine ⟨by simpa [h1] using h.size_eq, by simpa [h2] using h.stack_size,
        by simpa [h3] using h.array_len, by simp only [h4]; omega, by simp only [h4]; omega, ?_⟩
      have hp := h.perm
      rw [hl] at hp
      simpa using hp
  | release i =>
    cases hr : free_list_release s.pool i with
    | none =>
      have e : pool_step s (pool_op.release i) = s := by simp only [pool_step, hr]
      rw [e]; exact h
    | some fl =>
      have e : pool_step s (pool_op.release i) = { pool := fl, in_use := s.in_use.erase i } := by
        simp only [pool_step, hr]
      rw [e]
      obtain ⟨hl, hnm, h0, hn, h1, h2, h3, h4, h5⟩ := release_spec n s h i fl hr
      have hss := h.stack_size
      have hlo := h.top_lo
      refine ⟨by simpa [h1] using h.size_eq, by simpa [h2] using h.stack_size,
        by simpa [h3] using h.array_len, by simp only [h4]; omega, by simp only [h4]; omega, ?_⟩
      have hin : i ∈ s.in_use := by
        rcases (pool_inv_mem n s h i).mpr ⟨h0, hn⟩ with hm | hm
        · exact absurd hm hnm
        · exact hm
      simp only [hl]
      refine List.Perm.trans ?_ h.perm
      rw [List.append_assoc]
      apply List.Perm.append_left
      exact (List.perm_cons_erase hin).symm

theorem pool_inv_foldl (n : Nat) (ops : List pool_op) (s : pool_run) (h : pool_inv n s) :
    pool_inv n (ops.foldl pool_step s) := by
  induction ops generalizing s with
  | nil => exact h
  | cons op rest ih => exact ih (pool_step s op) (pool_inv_step n s h op)

theorem pool_inv_after (buffers n : Nat) (ops : List pool_op) :
    pool_inv n (pool_after buffers n ops) :=
  pool_inv_foldl n ops _ (pool_inv_create buffers n)

/-- C3: for every sequence of acquire and release operations on a buffer pool of
capacity `n`, the number of slots in use is at most `n`, no index is in use twice,
an acquire succeeds whenever fewer than `n` slots are in use, and an index returned
by acquire lies in `[0, n)` and differs from every index in use at that moment. -/
theorem C3_pool_in_use_bounded_and_unique (buffers n : Nat) (ops : List pool_op) :
    (pool_after buffers n ops).in_use.length ≤ n ∧
    (pool_after buffers n ops).in_use.Nodup ∧
    ((pool_after buffers n ops).in_use.length < n →
      (free_list_acquire (pool_after buffers n ops).pool).isSome = true) ∧
    (∀ (i : Int) (fl : free_list_t),
      free_list_acquire (pool_after buffers n ops).pool = some (i, fl) →
      i ∉ (pool_after buffers n ops).in_use ∧ 0 ≤ i ∧ i < n) := by
  have h := pool_inv_after buffers n ops
  have hc := pool_inv_counts n _ h
  have hnd := pool_inv_nodup n _ h
  refine ⟨by omega, (List.nodup_append.mp hnd).2.1, ?_, ?_⟩
  · intro hlt
    apply acquire_isSome n _ h
    have := stack_live_length n _ h
    omega
  · intro i fl ha
    obtain ⟨hl, -⟩ := acquire_spec n _ h i fl ha
    have hmem : i ∈ stack_live (pool_after buffers n ops).pool.free_index := by
      rw [hl]; simp
    refine ⟨?_, (pool_inv_mem n _ h i).mp (Or.inl hmem)⟩
    intro hin
    exact (List.nodup_append.mp hnd).2.2 hmem hin

/-- Witness for C3: capacity 3, after two acquires and one release the next acquire
returns index 1, which is not in use. -/
theorem C3_pool_in_use_bounded_and_unique_witness :
    (1 : Int) ∉ (pool_after 0 3 [pool_op.acquire, pool_op.acquire, pool_op.release 1]).in_use ∧
    (0 : Int) ≤ 1 ∧ (1 : Int) < (3 : Nat) :=
  (C3_pool_in_use_bounded_and_unique 0 3
    [pool_op.acquire, pool_op.acquire, pool_op.release 1]).2.2.2 1
    { buffers := 0, free_index := { array := [0, 1, 2], top := 0, size := 3 }, size := 3 }
    (by decide)
/-! ## Request state machine -/

theorem req_step_terminal (r : nccl_ofi_req_t) (e : req_event)
    (h : is_terminal r.state = true) : req_step r e = r := by
  unfold req_step
  cases hs : r.state <;> rw [hs] at h <;> cases e <;> simp_all [is_terminal]

theorem req_trace_terminal (r : nccl_ofi_req_t) (es : List req_event)
    (h : is_terminal r.state = true) : ∀ s ∈ req_trace r es, s = r.state := by
  induction es with
  | nil => intro s hs; simpa [req_trace] using hs
  | cons e es ih =>
    intro s hs
    rw [req_trace, req_step_terminal r e h] at hs
    rcases List.mem_cons.mp hs with h1 | h1
    · exact h1
    · exact ih s h1

theorem req_trace_head (r : nccl_ofi_req_t) (es : List req_event) :
    ∃ rest, req_trace r es = r.state :: rest := by
  cases es with
  | nil => exact ⟨[], rfl⟩
  | cons e es => exact ⟨req_trace (req_step r e) es, rfl⟩

theorem terminal_entries_of_terminal (r : nccl_ofi_req_t) (es : List req_event)
    (h : is_terminal r.state = true) : terminal_entries (req_trace r es) = 0 := by
  induction es with
  | nil => rfl
  | cons e es ih =>
    rw [req_trace, req_step_terminal r e h]
    obtain ⟨rest, hrest⟩ := req_trace_head r es
    rw [hrest] at ih ⊢
    rw [terminal_entries, ih]
    simp [h]

theorem terminal_entries_le_one (r : nccl_ofi_req_t) (es : List req_event) :
    terminal_entries (req_trace r es) ≤ 1 := by
  induction es generalizing r with
  | nil => simp [req_trace, terminal_entries]
  | cons e es ih =>
    rw [req_trace]
    obtain ⟨rest, hrest⟩ := req_trace_head (req_step r e) es
    by_cases ht : is_terminal (req_step r e).state = true
    · have h0 := terminal_entries_of_terminal (req_step r e) es ht
      rw [hrest] at h0 ⊢
      rw [terminal_entries, h0]
      split <;> omega
    · have h1 := ih (req_step r e)
      rw [hrest] at h1 ⊢
      rw [terminal_entries]
      have : ¬ (is_terminal r.state = false ∧ is_terminal (req_step r e).state = true) :=
        fun hc => ht hc.2
      rw [if_neg this]
      omega

theorem req_trace_not_both (r : nccl_ofi_req_t) (es : List req_event) :
    ¬ (NCCL_OFI_REQ_COMPLETED ∈ req_trace r es ∧ NCCL_OFI_REQ_ERROR ∈ req_trace r es) := by
  induction es generalizing r with
  | nil =>
    rintro ⟨h1, h2⟩
    simp only [req_trace, List.mem_singleton] at h1 h2
    rw [← h1] at h2
    exact absurd h2 (by decide)
  | cons e es ih =>
    rintro ⟨h1, h2⟩
    by_cases ht : is_terminal r.state = true
    · have a1 := req_trace_terminal r (e :: es) ht _ h1
      have a2 := req_trace_terminal r (e :: es) ht _ h2
      exact absurd (a1.trans a2.symm) (by decide)
    · rw [req_trace] at h1 h2
      rcases List.mem_cons.mp h1 with e1 | m1
      · rw [← e1] at ht; exact ht rfl
      · rcases List.mem_cons.mp h2 with e2 | m2
        · rw [← e2] at ht; exact ht rfl
        · exact ih (req_step r e) ⟨m1, m2⟩

/-- C4: for every request and every sequence of engine events, a terminal state
(`NCCL_OFI_REQ_COMPLETED` or `NCCL_OFI_REQ_ERROR`) is entered at most once, the
request never goes through both, and no event (in particular no completion event)
changes a request whose state is already terminal. -/
theorem C4_request_terminal_once (r : nccl_ofi_req_t) (es : List req_event) :
    terminal_entries (req_trace r es) ≤ 1 ∧
    ¬ (NCCL_OFI_REQ_COMPLETED ∈ req_trace r es ∧ NCCL_OFI_REQ_ERROR ∈ req_trace r es) ∧
    (∀ (q : nccl_ofi_req_t) (e : req_event),
      (q.state = NCCL_OFI_REQ_COMPLETED ∨ q.state = NCCL_OFI_REQ_ERROR) →
      is_completion e = true → req_step q e = q) := by
  refine ⟨terminal_entries_le_one r es, req_trace_not_both r es, ?_⟩
  intro q e hq _
  apply req_step_terminal
  rcases hq with h | h <;> rw [h] <;> rfl

/-- Witness for C4: a completed request is not changed by a later error completion. -/
theorem C4_request_terminal_once_witness :
    req_step { req_sample with state := NCCL_OFI_REQ_COMPLETED, size := 4 }
      req_event.completion_error
      = { req_sample with state := NCCL_OFI_REQ_COMPLETED, size := 4 } :=
  (C4_request_terminal_once req_sample []).2.2
    { req_sample with state := NCCL_OFI_REQ_COMPLETED, size := 4 }
    req_event.completion_error (Or.inl rfl) rfl

/-! ## Pending-retry queue: representation invariant -/

theorem q_chain_nil_iff (elems : Nat → pending_reqs_q_elem_t) (h : Nat) (l : List logged_entry)
    (hc : q_chain elems h l) : h = NULL ↔ l = [] := by
  cases l with
  | nil => simpa [q_chain] using hc
  | cons x rest =>
    obtain ⟨-, hne, -⟩ := hc
    simp [hne]

/-- Memory that agrees on the addresses of a chain carries the same chain. -/
theorem q_chain_congr (elems elems' : Nat → pending_reqs_q_elem_t) (l : List logged_entry) :
    ∀ h, q_chain elems h l → (∀ x ∈ l, elems' x.addr = elems x.addr) → q_chain elems' h l := by
  induction l with
  | nil => intro h hc _; exact hc
  | cons x rest ih =>
    intro h hc hag
    obtain ⟨h1, h2, h3, h4, h5⟩ := hc
    have e : elems' h = elems h := by rw [h1]; exact hag x (List.mem_cons_self _ _)
    refine ⟨h1, h2, by rw [e]; exact h3, by rw [e]; exact h4, ?_⟩
    rw [e]
    exact ih _ h5 (fun y hy => hag y (List.mem_cons_of_mem _ hy))

/-- Linking a fresh element behind the last one extends the chain by it. -/
theorem q_chain_snoc (elems : Nat → pending_reqs_q_elem_t) (p bi : Nat) (pr : pending_req_t)
    (hp : p ≠ NULL) (hnext : (elems p).next = NULL) (hbi : (elems p).buffer_index = bi)
    (hpr : (elems p).pending_req = pr) (l : List logged_entry) :
    ∀ h t, q_chain elems h l → l ≠ [] → (l.map logged_entry.addr).Nodup →
      p ∉ l.map logged_entry.addr → (∀ x ∈ l.getLast?, t = x.addr) →
      q_chain (Function.update elems t { elems t with next := p }) h
        (l ++ [{ addr := p, buffer_index := bi, pending_req := pr }]) := by
  induction l with
  | nil => intro h t _ hne; exact absurd rfl hne
  | cons x rest ih =>
    intro h t hc _ hnd hpn hlast
    obtain ⟨h1, h2, h3, h4, h5⟩ := hc
    have hpx : p ≠ x.addr := by
      intro e; apply hpn; rw [e]; simp
    cases rest with
    | nil =>
      have ht : t = x.addr := hlast x (by simp)
      have hth : t = h := by rw [ht, h1]
      subst hth
      have hpt : p ≠ t := by rw [ht]; exact hpx
      refine ⟨h1, h2, ?_, ?_, ?_⟩
      · simpa using h3
      · simpa using h4
      · simp only [Function.update_same]
        refine ⟨rfl, hp, ?_, ?_, ?_⟩
        · rw [Function.update_noteq hpt]; exact hbi
        · rw [Function.update_noteq hpt]; exact hpr
        · rw [Function.update_noteq hpt, hnext]; rfl
    | cons y rest' =>
      have hnd' : ((y :: rest').map logged_entry.addr).Nodup := (List.nodup_cons.mp hnd).2
      have hxn : x.addr ∉ (y :: rest').map logged_entry.addr := (List.nodup_cons.mp hnd).1
      have hpn' : p ∉ (y :: rest').map logged_entry.addr := by
        intro hm; apply hpn
        simp only [List.map_cons, List.mem_cons] at hm ⊢
        exact Or.inr hm
      have hlast' : ∀ z ∈ (y :: rest').getLast?, t = z.addr := by
        intro z hz; apply hlast z
        simpa [List.getLast?_cons_cons] using hz
      have htin : t ∈ (y :: rest').map logged_entry.addr := by
        have hne : (y :: rest') ≠ [] := by simp
        have := hlast' ((y :: rest').getLast hne) (by simp [List.getLast?_eq_getLast _ hne])
        rw [this]
        exact List.mem_map_of_mem _ (List.getLast_mem hne)
      have hht : h ≠ t := by
        intro e; apply hxn; rw [← h1, e]; exact htin
      have hag : Function.update elems t { elems t with next := p } h = elems h :=
        Function.update_noteq hht _ _
      refine ⟨h1, h2, by rw [hag]; exact h3, by rw [hag]; exact h4, ?_⟩
      rw [hag]
      exact ih _ t h5 (by simp) hnd' hpn' hlast'

theorem queue_inv_init (elems : Nat → pending_reqs_q_elem_t) (reqs : Nat → nccl_ofi_req_t) :
    queue_inv (queue_init elems reqs) := by
  refine ⟨rfl, ?_, ?_, ?_, ?_⟩
  · simp [queue_live, queue_init]
  · simp [queue_live, queue_init, q_chain]
  · simp [queue_live, queue_init]
  · simp [queue_init]

theorem deq_length_le (s : queue_run) (h : queue_inv s) :
    s.dequeued.length ≤ s.enqueued.length := by
  have := congrArg List.length h.deq_order
  rw [List.length_take] at this
  omega

theorem queue_inv_park (s : queue_run) (h : queue_inv s) (p bi : Nat) (pr : pending_req_t)
    (hok : queue_op_ok s (queue_op.park p bi pr) = true) :
    queue_inv (queue_step s (queue_op.park p bi pr)) := by
  have hle := deq_length_le s h
  simp only [queue_op_ok, Bool.and_eq_true, decide_eq_true_eq] at hok
  obtain ⟨hp, hfresh⟩ := hok
  have hlive : queue_live (queue_step s (queue_op.park p bi pr))
      = queue_live s ++ [{ addr := p, buffer_index := bi, pending_req := pr }] := by
    simp only [queue_live, queue_step]
    rw [List.drop_append_of_le_length hle]
  -- the memory after the entry has been written at `p`
  have hfresh0 : ∀ x ∈ queue_live s,
      Function.update s.elems p
        ({ next := NULL, buffer_index := bi, pending_req := pr } : pending_reqs_q_elem_t) x.addr
        = s.elems x.addr := by
    intro x hx
    apply Function.update_noteq
    intro e; apply hfresh; rw [← e]; exact List.mem_map_of_mem _ hx
  have hc0 := q_chain_congr s.elems _ (queue_live s) _ h.chain hfresh0
  refine ⟨?_, ?_, ?_, ?_, ?_⟩
  · show s.dequeued = (s.enqueued ++ _).take s.dequeued.length
    rw [List.take_append_of_le_length hle]
    exact h.deq_order
  · rw [hlive, List.map_append, List.nodup_append]
    refine ⟨h.nodup, by simp, ?_⟩
    intro a ha hb
    simp only [List.map_cons, List.map_nil, List.mem_singleton] at hb
    rw [hb] at ha
    exact hfresh ha
  · rw [hlive]
    by_cases hh : s.nccl_ofi.pending_reqs_q.head = NULL
    · have hnil : queue_live s = [] := (q_chain_nil_iff _ _ _ h.chain).mp hh
      simp only [queue_step, enqueue, hh, if_true, hnil, List.nil_append]
      refine ⟨rfl, hp, ?_, ?_, ?_⟩ <;> simp [q_chain]
    · have hne : queue_live s ≠ [] := fun e => hh ((q_chain_nil_iff _ _ _ h.chain).mpr e)
      simp only [queue_step, enqueue, hh, if_false]
      have e1 : Function.update
          (Function.update s.elems p
            ({ next := NULL, buffer_index := bi, pending_req := pr } : pending_reqs_q_elem_t)) p
          { next := NULL, buffer_index := bi, pending_req := pr }
          = Function.update s.elems p
            ({ next := NULL, buffer_index := bi, pending_req := pr } : pending_reqs_q_elem_t) := by
        simp
      simp only [Function.update_same] at e1 ⊢
      rw [e1]
      exact q_chain_snoc _ p bi pr hp (by simp) (by simp) (by simp) (queue_live s) _ _
        hc0 hne h.nodup hfresh h.tail_ok
  · intro x hx
    rw [hlive] at hx
    simp only [List.getLast?_append, List.getLast?_singleton, Option.mem_def] at hx
    simp at hx
    subst hx
    by_cases hh : s.nccl_ofi.pending_reqs_q.head = NULL
    · simp [queue_step, enqueue, hh]
    · simp [queue_step, enqueue, hh]
  · intro a ha
    have := h.tried a ha
    refine ⟨this.1, ?_⟩
    show (s.enqueued ++ _).get? a.2 = some a.1
    have hlt : a.2 < s.enqueued.length := by
      have h2 := this.2
      rw [List.get?_eq_getElem?] at h2
      exact (List.getElem?_eq_some_iff.mp h2).1
    rw [List.get?_eq_getElem?, List.getElem?_append_left hlt, ← List.get?_eq_getElem?]
    exact this.2

/-- What the logs and the memory say when the queue is not empty. -/
theorem queue_front_spec (s : queue_run) (h : queue_inv s) (b : logged_entry)
    (hf : queue_front s = some b) :
    ∃ rest, queue_live s = b :: rest ∧ s.enqueued.get? s.dequeued.length = some b ∧
      b.addr = s.nccl_ofi.pending_reqs_q.head ∧
      q_chain s.elems (s.elems s.nccl_ofi.pending_reqs_q.head).next rest := by
  unfold queue_front at hf
  by_cases hh : s.nccl_ofi.pending_reqs_q.head = NULL
  · simp [hh] at hf
  · rw [if_neg hh] at hf
    simp only [Option.some.injEq] at hf
    have hc := h.chain
    cases hl : queue_live s with
    | nil =>
      rw [hl] at hc
      exact absurd hc hh
    | cons x rest =>
      rw [hl] at hc
      obtain ⟨h1, h2, h3, h4, h5⟩ := hc
      have hbx : b = x := by
        rw [← hf]
        cases x
        simp only [logged_entry.mk.injEq]
        exact ⟨h1, h3, h4⟩
      subst hbx
      refine ⟨rest, rfl, ?_, h1.symm, h5⟩
      have : (s.enqueued.drop s.dequeued.length)[0]? = some b := by
        have := hl; unfold queue_live at this; rw [this]; simp
      rw [List.getElem?_drop] at this
      rw [List.get?_eq_getElem?]
      simpa using this

theorem queue_inv_dequeue (s : queue_run) (h : queue_inv s) (b : logged_entry)
    (hf : queue_front s = some b) (reqs : Nat → nccl_ofi_req_t) :
    queue_inv
      { s with
        nccl_ofi := { s.nccl_ofi with
          pending_reqs_q := dequeue s.nccl_ofi.pending_reqs_q s.elems }
        reqs := reqs
        dequeued := s.dequeued ++ [b]
        attempts := s.attempts ++ [(b, s.dequeued.length)] } := by
  obtain ⟨rest, hl, hget, haddr, hch⟩ := queue_front_spec s h b hf
  have hle := deq_length_le s h
  have hlt : s.dequeued.length < s.enqueued.length := by
    rw [List.get?_eq_getElem?] at hget
    exact (List.getElem?_eq_some_iff.mp hget).1
  have hlive' : List.drop (s.dequeued ++ [b]).length s.enqueued = rest := by
    have : List.drop 1 (queue_live s) = rest := by rw [hl]; rfl
    unfold queue_live at this
    rw [List.drop_drop] at this
    simp only [List.length_append, List.length_singleton]
    exact this
  refine ⟨?_, ?_, ?_, ?_, ?_⟩
  · show s.dequeued ++ [b] = s.enqueued.take (s.dequeued ++ [b]).length
    simp only [List.length_append, List.length_singleton]
    rw [List.take_succ, ← List.get?_eq_getElem?, hget, ← h.deq_order]
    rfl
  · show ((List.drop (s.dequeued ++ [b]).length s.enqueued).map logged_entry.addr).Nodup
    rw [hlive']
    have := h.nodup
    rw [hl] at this
    exact (List.nodup_cons.mp this).2
  · show q_chain s.elems (dequeue s.nccl_ofi.pending_reqs_q s.elems).head
      (List.drop (s.dequeued ++ [b]).length s.enqueued)
    rw [hlive']
    exact hch
  · show ∀ x ∈ (List.drop (s.dequeued ++ [b]).length s.enqueued).getLast?,
      (dequeue s.nccl_ofi.pending_reqs_q s.elems).tail = x.addr
    rw [hlive']
    intro x hx
    have hrne : rest ≠ [] := by
      intro e; rw [e] at hx; simp at hx
    have hnn : (s.elems s.nccl_ofi.pending_reqs_q.head).next ≠ NULL :=
      fun e => hrne ((q_chain_nil_iff _ _ _ hch).mp e)
    simp only [dequeue, hnn, if_false]
    apply h.tail_ok
    rw [hl]
    cases rest with
    | nil => exact absurd rfl hrne
    | cons y r => simpa [List.getLast?_cons_cons] using hx
  · intro a ha
    simp only [List.length_append, List.length_singleton]
    rcases List.mem_append.mp ha with ha | ha
    · have := h.tried a ha
      exact ⟨by omega, this.2⟩
    · simp only [List.mem_singleton] at ha
      subst ha
      exact ⟨by simp, hget⟩

theorem queue_inv_step (s : queue_run) (h : queue_inv s) (op : queue_op)
    (hok : queue_op_ok s op = true) : queue_inv (queue_step s op) := by
  cases op with
  | park p bi pr => exact queue_inv_park s h p bi pr hok
  | drain result =>
    cases hf : queue_front s with
    | none =>
      have e : queue_step s (queue_op.drain result) = s := by simp only [queue_step, hf]
      rw [e]; exact h
    | some b =>
      obtain ⟨rest, hl, hget, -⟩ := queue_front_spec s h b hf
      cases result with
      | success =>
        simp only [queue_step, hf]
        exact queue_inv_dequeue s h b hf _
      | permanent =>
        simp only [queue_step, hf]
        exact queue_inv_dequeue s h b hf _
      | transient =>
        have e : queue_step s (queue_op.drain post_result.transient)
            = { s with attempts := s.attempts ++ [(b, s.dequeued.length)] } := by
          simp only [queue_step, hf]
        rw [e]
        refine ⟨h.deq_order, h.nodup, h.chain, h.tail_ok, ?_⟩
        intro a ha
        rcases List.mem_append.mp ha with ha | ha
        · exact h.tried a ha
        · simp only [List.mem_singleton] at ha
          subst ha
          exact ⟨le_refl _, hget⟩

theorem queue_inv_foldl (ops : List queue_op) (s : queue_run) (h : queue_inv s)
    (hok : queue_ops_ok s ops = true) : queue_inv (ops.foldl queue_step s) := by
  induction ops generalizing s with
  | nil => exact h
  | cons op rest ih =>
    simp only [queue_ops_ok, Bool.and_eq_true] at hok
    exact ih _ (queue_inv_step s h op hok.1) hok.2

/-- C5: the pending-retry queue is first-in first-out. After every sequence of
operations the program can perform on an empty queue: the entries were dequeued in
the order they were enqueued; every repost attempt was made on the entry whose
position `k` in the order of enqueueing equals the number of dequeues done before
the attempt, so every entry enqueued earlier (position `i < k`) had been dequeued
before, as the `i`-th dequeue; and the entry the next `drain_once` would attempt is
the oldest one not dequeued yet. -/
theorem C5_pending_queue_fifo (elems : Nat → pending_reqs_q_elem_t)
    (reqs : Nat → nccl_ofi_req_t) (ops : List queue_op)
    (hok : queue_ops_ok (queue_init elems reqs) ops = true) :
    (queue_after elems reqs ops).dequeued
      = (queue_after elems reqs ops).enqueued.take (queue_after elems reqs ops).dequeued.length ∧
    (∀ a ∈ (queue_after elems reqs ops).attempts,
      (queue_after elems reqs ops).enqueued.get? a.2 = some a.1 ∧
      ∀ i, i < a.2 → ∃ x, (queue_after elems reqs ops).enqueued.get? i = some x ∧
        (queue_after elems reqs ops).dequeued.get? i = some x) ∧
    (∀ b, queue_front (queue_after elems reqs ops) = some b →
      (queue_after elems reqs ops).enqueued.get?
        (queue_after elems reqs ops).dequeued.length = some b) := by
  have h := queue_inv_foldl ops _ (queue_inv_init elems reqs) hok
  refine ⟨h.deq_order, ?_, ?_⟩
  · intro a ha
    obtain ⟨h1, h2⟩ := h.tried a ha
    refine ⟨h2, ?_⟩
    intro i hi
    have hlt : i < (queue_after elems reqs ops).dequeued.length := by
      unfold queue_after; omega
    refine ⟨(queue_after elems reqs ops).dequeued.get ⟨i, hlt⟩, ?_, List.get?_eq_get hlt⟩
    have hp := h.deq_order
    have : (queue_after elems reqs ops).dequeued.get? i
        = (queue_after elems reqs ops).enqueued.get? i := by
      conv_lhs => rw [show (queue_after elems reqs ops).dequeued
        = List.take (queue_after elems reqs ops).dequeued.length
            (queue_after elems reqs ops).enqueued from hp]
      rw [List.get?_eq_getElem?, List.get?_eq_getElem?, List.getElem?_take_of_lt hlt]
    rw [← this]
    exact List.get?_eq_get hlt
  · intro b hb
    obtain ⟨_, _, hget, _⟩ := queue_front_spec _ h b hb
    exact hget

/-- Witness for C5 on the sample sequence of operations. -/
theorem C5_pending_queue_fifo_witness :
    queue_ops_ok (queue_init elems_zero (fun _ => req_sample)) queue_ops_sample = true ∧
    (queue_after elems_zero (fun _ => req_sample) queue_ops_sample).dequeued
      = (queue_after elems_zero (fun _ => req_sample) queue_ops_sample).enqueued.take
          (queue_after elems_zero (fun _ => req_sample) queue_ops_sample).dequeued.length :=
  ⟨by decide,
   (C5_pending_queue_fifo elems_zero (fun _ => req_sample) queue_ops_sample (by decide)).1⟩
/-! ## The completion loop of the message-transfer test -/

theorem num_set_le (l : List Int) : num_set l ≤ l.length :=
  List.length_filter_le _ l

theorem getD_set_same (l : List Int) (i : Nat) (v : Int) (h : i < l.length) :
    (l.set i v).getD i 0 = v := by
  simp [List.getD_eq_getElem?_getD, List.getElem?_set, h]

theorem getD_set_other (l : List Int) (i j : Nat) (v : Int) (h : i ≠ j) :
    (l.set i v).getD j 0 = l.getD j 0 := by
  simp [List.getD_eq_getElem?_getD, List.getElem?_set, h]

theorem num_set_set (l : List Int) (i : Nat) (h : i < l.length) (hz : l.getD i 0 = 0) :
    num_set (l.set i 1) = num_set l + 1 := by
  induction l generalizing i with
  | nil => simp at h
  | cons x xs ih =>
    cases i with
    | zero =>
      have hx : x = 0 := by simpa using hz
      subst hx
      simp [num_set]
    | succ k =>
      have hk : k < xs.length := by simpa using h
      have hzk : xs.getD k 0 = 0 := by simpa using hz
      have := ih k hk hzk
      unfold num_set at this ⊢
      simp only [List.set_cons_succ, List.filter_cons]
      split
      · simp only [List.length_cons]; omega
      · exact this

theorem num_set_full_iff (l : List Int) :
    num_set l = l.length ↔ ∀ i, i < l.length → l.getD i 0 ≠ 0 := by
  unfold num_set
  rw [List.filter_length_eq_length]
  constructor
  · intro hall i hi
    have hm : l[i] ∈ l := List.getElem_mem hi
    have := hall _ hm
    rw [List.getD_eq_getElem l 0 hi]
    simpa using this
  · intro hall a ha
    obtain ⟨n, hn, rfl⟩ := List.mem_iff_getElem.mp ha
    have := hall n hn
    rw [List.getD_eq_getElem l 0 hn] at this
    simpa using this

theorem loop_inv_init (rank : Int) (NUM_REQUESTS : Nat) (isend irecv : Nat → Nat) :
    loop_inv NUM_REQUESTS (post_requests rank NUM_REQUESTS isend irecv)
      (test_init rank NUM_REQUESTS isend irecv) := by
  have hz : ∀ i, (List.replicate NUM_REQUESTS (0 : Int)).getD i 0 = 0 := by
    intro i
    simp only [List.getD_eq_getElem?_getD, List.getElem?_replicate]
    split <;> rfl
  refine ⟨rfl, by simp [test_init], Nat.zero_le _, ?_, ?_, ?_, ?_⟩
  · have : num_set (List.replicate NUM_REQUESTS (0 : Int)) = 0 := by
      unfold num_set
      rw [List.length_eq_zero, List.filter_eq_nil_iff]
      intro a ha
      have := List.eq_of_mem_replicate ha
      simp [this]
    simp [test_init, this]
  · intro i _
    simp only [test_init, hz]
    simp
  · intro i; simp [test_init, done_calls]
  · intro c hc; simp [test_init] at hc

theorem done_calls_nil_of_flag (NUM_REQUESTS : Nat) (req : List Nat) (s : test_state)
    (h : loop_inv NUM_REQUESTS req s) (i : Nat) (hi : i < NUM_REQUESTS)
    (hz : s.req_completed.getD i 0 = 0) : done_calls i s.tested = [] := by
  unfold done_calls
  rw [List.filter_eq_nil_iff]
  intro c hc hp
  simp only [Bool.and_eq_true, decide_eq_true_eq] at hp
  have := (h.flags i hi).mpr ⟨c, hc, hp.1, hp.2⟩
  exact this hz

theorem loop_body_skip (answers : Nat → Int) (s : test_state)
    (hf : s.req_completed.getD s.idx 0 ≠ 0) :
    loop_body answers s = { s with idx := s.idx + 1 } := by
  unfold loop_body
  rw [if_pos hf]

theorem loop_body_done (answers : Nat → Int) (s : test_state)
    (hz : s.req_completed.getD s.idx 0 = 0) (hd : answers s.tested.length ≠ 0) :
    loop_body answers s =
      { s with
        inflight_reqs := s.inflight_reqs - 1
        req_completed := s.req_completed.set s.idx 1
        idx := s.idx + 1
        tested := s.tested ++ [next_call answers s] } := by
  unfold loop_body
  rw [if_neg (not_not.mpr hz)]
  dsimp only
  rw [if_pos (show (next_call answers s).done ≠ 0 from hd)]

theorem loop_body_pending (answers : Nat → Int) (s : test_state)
    (hz : s.req_completed.getD s.idx 0 = 0) (hd : answers s.tested.length = 0) :
    loop_body answers s =
      { s with
        idx := s.idx + 1
        tested := s.tested ++ [next_call answers s] } := by
  unfold loop_body
  rw [if_neg (not_not.mpr hz)]
  dsimp only
  rw [if_neg (not_not.mpr (show (next_call answers s).done = 0 from hd))]

theorem done_calls_append (i : Nat) (l : List test_call) (c : test_call) :
    done_calls i (l ++ [c])
      = done_calls i l ++ (if c.idx = i ∧ c.done ≠ 0 then [c] else []) := by
  unfold done_calls
  rw [List.filter_append]
  congr 1
  by_cases h : c.idx = i ∧ c.done ≠ 0
  · rw [if_pos h, List.filter_cons_of_pos (by simp [h.1, h.2]), List.filter_nil]
  · rw [if_neg h, List.filter_cons_of_neg, List.filter_nil]
    intro hp
    simp only [Bool.and_eq_true, decide_eq_true_eq] at hp
    exact h hp

theorem loop_inv_body (NUM_REQUESTS : Nat) (req : List Nat) (answers : Nat → Int)
    (s : test_state) (h : loop_inv NUM_REQUESTS req s) (hlt : s.idx < NUM_REQUESTS) :
    loop_inv NUM_REQUESTS req (loop_body answers s) := by
  by_cases hf : s.req_completed.getD s.idx 0 ≠ 0
  · rw [loop_body_skip answers s hf]
    exact ⟨h.req_eq, h.len, hlt, h.count, h.flags, h.once, h.calls⟩
  · have hz : s.req_completed.getD s.idx 0 = 0 := not_not.mp hf
    have hcall : ∀ c ∈ s.tested ++ [next_call answers s],
        c.idx < NUM_REQUESTS ∧ c.request = req.getD c.idx NULL := by
      intro c hc
      rcases List.mem_append.mp hc with hc | hc
      · exact h.calls c hc
      · simp only [List.mem_singleton] at hc
        subst hc
        exact ⟨hlt, by simp only [next_call, h.req_eq]⟩
    by_cases hd : answers s.tested.length ≠ 0
    · rw [loop_body_done answers s hz hd]
      have hlen : s.idx < s.req_completed.length := by rw [h.len]; exact hlt
      refine ⟨h.req_eq, ?_, hlt, ?_, ?_, ?_, hcall⟩
      · show (s.req_completed.set s.idx 1).length = NUM_REQUESTS
        rw [List.length_set]; exact h.len
      · show s.inflight_reqs - 1 = (NUM_REQUESTS : Int) - (num_set (s.req_completed.set s.idx 1) : Int)
        rw [num_set_set _ _ hlen hz, h.count]
        push_cast
        ring
      · intro i hi
        show (s.req_completed.set s.idx 1).getD i 0 ≠ 0 ↔
          ∃ c ∈ s.tested ++ [next_call answers s], c.idx = i ∧ c.done ≠ 0
        by_cases hii : s.idx = i
        · subst hii
          rw [getD_set_same _ _ _ hlen]
          constructor
          · intro _
            exact ⟨_, List.mem_append_right _ (List.mem_singleton_self _), rfl, hd⟩
          · intro _; decide
        · rw [getD_set_other _ _ _ _ hii, h.flags i hi]
          constructor
          · rintro ⟨c, hc, h1, h2⟩
            exact ⟨c, List.mem_append_left _ hc, h1, h2⟩
          · rintro ⟨c, hc, h1, h2⟩
            rcases List.mem_append.mp hc with hc | hc
            · exact ⟨c, hc, h1, h2⟩
            · simp only [List.mem_singleton] at hc
              subst hc
              exact absurd h1 hii
      · intro i
        show (done_calls i (s.tested ++ [next_call answers s])).length ≤ 1
        rw [done_calls_append]
        by_cases hii : s.idx = i
        · subst hii
          rw [done_calls_nil_of_flag NUM_REQUESTS req s h s.idx hlt hz]
          simp only [List.nil_append]
          split <;> simp
        · have := h.once i
          rw [if_neg (fun hc => hii hc.1), List.append_nil]
          exact this
    · have hd0 : answers s.tested.length = 0 := not_not.mp hd
      rw [loop_body_pending answers s hz hd0]
      refine ⟨h.req_eq, h.len, hlt, h.count, ?_, ?_, hcall⟩
      · intro i hi
        show s.req_completed.getD i 0 ≠ 0 ↔
          ∃ c ∈ s.tested ++ [next_call answers s], c.idx = i ∧ c.done ≠ 0
        rw [h.flags i hi]
        constructor
        · rintro ⟨c, hc, h1, h2⟩
          exact ⟨c, List.mem_append_left _ hc, h1, h2⟩
        · rintro ⟨c, hc, h1, h2⟩
          rcases List.mem_append.mp hc with hc | hc
          · exact ⟨c, hc, h1, h2⟩
          · simp only [List.mem_singleton] at hc
            subst hc
            exact absurd hd0 h2
      · intro i
        show (done_calls i (s.tested ++ [next_call answers s])).length ≤ 1
        rw [done_calls_append, if_neg (fun hc => hc.2 hd0), List.append_nil]
        exact h.once i

theorem loop_inv_step (NUM_REQUESTS : Nat) (req : List Nat) (answers : Nat → Int)
    (s : test_state) (h : loop_inv NUM_REQUESTS req s) :
    loop_inv NUM_REQUESTS req (loop_step NUM_REQUESTS answers s) := by
  unfold loop_step
  by_cases hlt : s.idx < NUM_REQUESTS
  · rw [if_pos hlt]; exact loop_inv_body NUM_REQUESTS req answers s h hlt
  · rw [if_neg hlt]
    exact ⟨h.req_eq, h.len, Nat.zero_le _, h.count, h.flags, h.once, h.calls⟩

theorem loop_inv_states (NUM_REQUESTS : Nat) (req : List Nat) (answers : Nat → Int)
    (s0 : test_state) (h0 : loop_inv NUM_REQUESTS req s0) (t : Nat) :
    ∀ s, loop_states NUM_REQUESTS answers s0 t = some s → loop_inv NUM_REQUESTS req s := by
  induction t with
  | zero =>
    intro s hs
    simp only [loop_states, Option.some.injEq] at hs
    rw [← hs]; exact h0
  | succ t ih =>
    intro s hs
    rw [loop_states] at hs
    cases hp : loop_states NUM_REQUESTS answers s0 t with
    | none => rw [hp] at hs; simp at hs
    | some s' =>
      rw [hp] at hs
      simp only at hs
      by_cases he : loop_exits NUM_REQUESTS s' = true
      · simp [he] at hs
      · simp only [he, Bool.false_eq_true, if_false, Option.some.injEq] at hs
        rw [← hs]
        exact loop_inv_step NUM_REQUESTS req answers s' (ih s' hp)

theorem post_fold_get (f : Nat → Nat) (NUM_REQUESTS n : Nat) (hn : n ≤ NUM_REQUESTS) :
    ((List.range n).foldl (fun r idx => r.set idx (f idx))
        (List.replicate NUM_REQUESTS NULL)).length = NUM_REQUESTS ∧
    ∀ i, ((List.range n).foldl (fun r idx => r.set idx (f idx))
        (List.replicate NUM_REQUESTS NULL)).getD i NULL = if i < n then f i else NULL := by
  induction n with
  | zero =>
    refine ⟨by simp, ?_⟩
    intro i
    simp only [List.range_zero, List.foldl_nil, List.getD_eq_getElem?_getD,
      List.getElem?_replicate, Nat.not_lt_zero, if_false]
    split <;> rfl
  | succ n ih =>
    obtain ⟨hl, hg⟩ := ih (by omega)
    rw [List.range_succ, List.foldl_append]
    simp only [List.foldl_cons, List.foldl_nil]
    refine ⟨by rw [List.length_set]; exact hl, ?_⟩
    intro i
    rw [List.getD_eq_getElem?_getD, List.getElem?_set]
    by_cases hi : n = i
    · subst hi
      simp [hl, Nat.lt_of_succ_le hn]
    · rw [if_neg hi, ← List.getD_eq_getElem?_getD, hg i]
      by_cases h1 : i < n
      · rw [if_pos h1, if_pos (by omega)]
      · rw [if_neg h1, if_neg (by omega)]

/-- C10: in the message-transfer test only rank 0 (sends) and rank 1 (receives)
post requests: their `req[idx]` is what `isend`, respectively `irecv`, stored. For
every other rank, when the completion loop starts every entry of `req` is `NULL`
and `inflight_reqs` is `NUM_REQUESTS`; so for `NUM_REQUESTS > 0` the first step of
the loop calls `test` on a `NULL` request, and so does every later call. -/
theorem C10_other_ranks_test_null (rank : Int) (NUM_REQUESTS : Nat)
    (isend irecv : Nat → Nat) (answers : Nat → Int) (h0 : rank ≠ 0) (h1 : rank ≠ 1) :
    (∀ i, i < NUM_REQUESTS →
      (test_init 0 NUM_REQUESTS isend irecv).req.getD i NULL = isend i ∧
      (test_init 1 NUM_REQUESTS isend irecv).req.getD i NULL = irecv i) ∧
    (test_init rank NUM_REQUESTS isend irecv).req = List.replicate NUM_REQUESTS NULL ∧
    (∀ i, i < NUM_REQUESTS →
      (test_init rank NUM_REQUESTS isend irecv).req.get? i = some NULL) ∧
    (test_init rank NUM_REQUESTS isend irecv).inflight_reqs = NUM_REQUESTS ∧
    (0 < NUM_REQUESTS →
      ∃ s, loop_states NUM_REQUESTS answers (test_init rank NUM_REQUESTS isend irecv) 1
          = some s ∧
        s.tested = [{ idx := 0, request := NULL, done := answers 0 }]) ∧
    (∀ t s, loop_states NUM_REQUESTS answers (test_init rank NUM_REQUESTS isend irecv) t
        = some s → ∀ c ∈ s.tested, c.request = NULL) := by
  have hreq : (test_init rank NUM_REQUESTS isend irecv).req
      = List.replicate NUM_REQUESTS NULL := by
    simp only [test_init, post_requests, h0, h1, if_false]
  have hnull : ∀ i, (List.replicate NUM_REQUESTS NULL).getD i NULL = NULL := by
    intro i
    simp only [List.getD_eq_getElem?_getD, List.getElem?_replicate]
    split <;> rfl
  refine ⟨?_, hreq, ?_, rfl, ?_, ?_⟩
  · intro i hi
    constructor
    · have := (post_fold_get isend NUM_REQUESTS NUM_REQUESTS (le_refl _)).2 i
      rw [if_pos hi] at this
      simpa [test_init, post_requests] using this
    · have := (post_fold_get irecv NUM_REQUESTS NUM_REQUESTS (le_refl _)).2 i
      rw [if_pos hi] at this
      simpa [test_init, post_requests] using this
  · intro i hi
    rw [hreq, List.get?_eq_getElem?, List.getElem?_replicate, if_pos hi]
  · intro hpos
    have hne : loop_exits NUM_REQUESTS (test_init rank NUM_REQUESTS isend irecv) = false := by
      simp only [loop_exits, Bool.and_eq_false_iff, decide_eq_false_iff_not]
      exact Or.inl (by simp only [test_init]; omega)
    have hz : (test_init rank NUM_REQUESTS isend irecv).req_completed.getD
        (test_init rank NUM_REQUESTS isend irecv).idx 0 = 0 := by
      simp only [test_init, List.getD_eq_getElem?_getD, List.getElem?_replicate]
      split <;> rfl
    have hcall : next_call answers (test_init rank NUM_REQUESTS isend irecv)
        = { idx := 0, request := NULL, done := answers 0 } := by
      simp only [next_call, hreq, hnull]
      rfl
    by_cases hd : answers 0 = 0
    · refine ⟨_, by
        simp only [loop_states, hne, Bool.false_eq_true, if_false]
        rw [loop_step, if_pos (show (test_init rank NUM_REQUESTS isend irecv).idx
          < NUM_REQUESTS from hpos), loop_body_pending answers _ hz hd], ?_⟩
      simp only [hcall]
      rfl
    · refine ⟨_, by
        simp only [loop_states, hne, Bool.false_eq_true, if_false]
        rw [loop_step, if_pos (show (test_init rank NUM_REQUESTS isend irecv).idx
          < NUM_REQUESTS from hpos), loop_body_done answers _ hz hd], ?_⟩
      simp only [hcall]
      rfl
  · intro t s hs c hc
    have h := loop_inv_states NUM_REQUESTS _ answers _
      (loop_inv_init rank NUM_REQUESTS isend irecv) t s hs
    have := (h.calls c hc).2
    rw [this]
    have e : post_requests rank NUM_REQUESTS isend irecv = List.replicate NUM_REQUESTS NULL :=
      hreq
    rw [e, hnull]

/-- Witness for C10: rank 2 with three requests; the first call of `test` gets a
`NULL` request. -/
theorem C10_other_ranks_test_null_witness :
    (test_init 2 3 (fun i => 64 + i) (fun i => 128 + i)).req = List.replicate 3 NULL :=
  (C10_other_ranks_test_null 2 3 (fun i => 64 + i) (fun i => 128 + i) (fun _ => 0)
    (by decide) (by decide)).2.1

/-! ## The completion loop, statement by statement: invariant -/

theorem num_set_lt_of_unset (l : List Int) (i : Nat) (hi : i < l.length)
    (hz : l.getD i 0 = 0) : num_set l < l.length := by
  have hle := num_set_le l
  have hne : num_set l ≠ l.length := fun e => (num_set_full_iff l).mp e i hi hz
  omega

theorem count_done_append (l : List Int) (d : Int) :
    count_done (l ++ [d]) = count_done l + (if d ≠ 0 then 1 else 0) := by
  unfold count_done
  rw [List.countP_append]
  by_cases h : d ≠ 0
  · simp [List.countP_cons, h]
  · simp [List.countP_cons, h]

theorem done_count_succ (answers : Nat → Int) (k : Nat) :
    done_count answers (k + 1) = done_count answers k + (if answers k ≠ 0 then 1 else 0) := by
  unfold done_count
  rw [List.range_succ, List.map_append, List.map_singleton, count_done_append]

theorem done_count_mono (answers : Nat → Int) (a b : Nat) (h : a ≤ b) :
    done_count answers a ≤ done_count answers b := by
  induction b with
  | zero => have : a = 0 := by omega
            rw [this]
  | succ b ih =>
    rcases Nat.eq_or_lt_of_le h with e | hl
    · rw [e]
    · have := ih (by omega)
      rw [done_count_succ]
      omega

theorem reported_done_append (l : List test_call) (c : test_call) (i : Nat) :
    reported_done (l ++ [c]) i ↔ reported_done l i ∨ (c.idx = i ∧ c.done ≠ 0) := by
  unfold reported_done
  constructor
  · rintro ⟨x, hx, h1, h2⟩
    rcases List.mem_append.mp hx with hx | hx
    · exact Or.inl ⟨x, hx, h1, h2⟩
    · simp only [List.mem_singleton] at hx
      subst hx
      exact Or.inr ⟨h1, h2⟩
  · rintro (⟨x, hx, h1, h2⟩ | ⟨h1, h2⟩)
    · exact ⟨x, List.mem_append_left _ hx, h1, h2⟩
    · exact ⟨c, List.mem_append_right _ (List.mem_singleton_self _), h1, h2⟩

theorem done_calls_nil_of_not_reported (l : List test_call) (i : Nat)
    (h : ¬ reported_done l i) : done_calls i l = [] := by
  unfold done_calls
  rw [List.filter_eq_nil_iff]
  intro c hc hp
  simp only [Bool.and_eq_true, decide_eq_true_eq] at hp
  exact h ⟨c, hc, hp.1, hp.2⟩

theorem point_inv_init (rank : Int) (NUM_REQUESTS : Nat) (isend irecv : Nat → Nat)
    (answers : Nat → Int) (done0 : Int) :
    point_inv NUM_REQUESTS (post_requests rank NUM_REQUESTS isend irecv) answers
      (point_init rank NUM_REQUESTS isend irecv done0) := by
  have hz : ∀ i, (List.replicate NUM_REQUESTS (0 : Int)).getD i 0 = 0 := by
    intro i
    simp only [List.getD_eq_getElem?_getD, List.getElem?_replicate]
    split <;> rfl
  have hns : num_set (List.replicate NUM_REQUESTS (0 : Int)) = 0 := by
    unfold num_set
    rw [List.length_eq_zero, List.filter_eq_nil_iff]
    intro a ha
    have := List.eq_of_mem_replicate ha
    simp [this]
  refine ⟨rfl, by simp [point_init, test_init], Nat.zero_le _, ?_, ?_, rfl, ?_, ?_, ?_, ?_, ?_, ?_⟩
  · intro h; simp [point_init, pc_in_body] at h
  · simp [point_init, test_init, hns, count_lag]
  · intro c hc; simp [point_init, test_init] at hc
  · intro i; simp [point_init, test_init, done_calls]
  · intro i _
    simp [point_init, test_init, reported_done, answer_pending, pc_pending, hz]
  · intro h; simp [point_init, pc_unset] at h
  · simp [point_init, test_init, count_done, answer_pending, pc_pending, hns]
  · intro h; simp [point_init] at h

theorem point_inv_step (NUM_REQUESTS : Nat) (req : List Nat) (answers : Nat → Int)
    (p : loop_point) (h : point_inv NUM_REQUESTS req answers p) :
    point_inv NUM_REQUESTS req answers (point_step NUM_REQUESTS answers p) := by
  obtain ⟨h_req, h_len, h_le, h_lt, h_count, h_tie, h_calls, h_once, h_flags, h_unset,
    h_log, h_exit⟩ := h
  cases hpc : p.pc with
  | for_init =>
    simp only [point_step, hpc]
    simp only [answer_pending, hpc, pc_pending, count_lag, Bool.false_eq_true, and_false,
      or_false, if_false, Nat.add_zero, Int.add_zero, add_zero] at h_count h_flags h_log
    refine ⟨h_req, h_len, Nat.zero_le _, ?_, ?_, h_tie, h_calls, h_once, ?_, ?_, ?_, ?_⟩
    · intro hb; simp [pc_in_body] at hb
    · simp only [count_lag, add_zero]; exact h_count
    · intro i hi
      simp only [answer_pending, pc_pending, Bool.false_eq_true, and_false, or_false]
      exact h_flags i hi
    · intro hb; simp [pc_unset] at hb
    · simp only [answer_pending, pc_pending, Bool.false_eq_true, if_false, Nat.add_zero]
      exact h_log
    · intro hb; simp at hb
  | for_cond =>
    simp only [point_step, hpc]
    simp only [answer_pending, hpc, pc_pending, count_lag, Bool.false_eq_true, and_false,
      or_false, if_false, Nat.add_zero, Int.add_zero, add_zero] at h_count h_flags h_log
    by_cases hlt : p.vars.idx < NUM_REQUESTS
    · rw [if_pos hlt]
      refine ⟨h_req, h_len, h_le, fun _ => hlt, ?_, h_tie, h_calls, h_once, ?_, ?_, ?_, ?_⟩
      · simp only [count_lag, add_zero]; exact h_count
      · intro i hi
        simp only [answer_pending, pc_pending, Bool.false_eq_true, and_false, or_false]
        exact h_flags i hi
      · intro hb; simp [pc_unset] at hb
      · simp only [answer_pending, pc_pending, Bool.false_eq_true, if_false, Nat.add_zero]
        exact h_log
      · intro hb; simp at hb
    · rw [if_neg hlt]
      refine ⟨h_req, h_len, h_le, ?_, ?_, h_tie, h_calls, h_once, ?_, ?_, ?_, ?_⟩
      · intro hb; simp [pc_in_body] at hb
      · simp only [count_lag, add_zero]; exact h_count
      · intro i hi
        simp only [answer_pending, pc_pending, Bool.false_eq_true, and_false, or_false]
        exact h_flags i hi
      · intro hb; simp [pc_unset] at hb
      · simp only [answer_pending, pc_pending, Bool.false_eq_true, if_false, Nat.add_zero]
        exact h_log
      · intro hb; simp at hb
  | if_completed =>
    simp only [point_step, hpc]
    have hlt := h_lt (by rw [hpc]; rfl)
    simp only [answer_pending, hpc, pc_pending, count_lag, Bool.false_eq_true, and_false,
      or_false, if_false, Nat.add_zero, Int.add_zero, add_zero] at h_count h_flags h_log
    by_cases hf : p.vars.req_completed.getD p.vars.idx 0 ≠ 0
    · rw [if_pos hf]
      refine ⟨h_req, h_len, h_le, fun _ => hlt, ?_, h_tie, h_calls, h_once, ?_, ?_, ?_, ?_⟩
      · simp only [count_lag, add_zero]; exact h_count
      · intro i hi
        simp only [answer_pending, pc_pending, Bool.false_eq_true, and_false, or_false]
        exact h_flags i hi
      · intro hb; simp [pc_unset] at hb
      · simp only [answer_pending, pc_pending, Bool.false_eq_true, if_false, Nat.add_zero]
        exact h_log
      · intro hb; simp at hb
    · rw [if_neg hf]
      refine ⟨h_req, h_len, h_le, fun _ => hlt, ?_, h_tie, h_calls, h_once, ?_, ?_, ?_, ?_⟩
      · simp only [count_lag, add_zero]; exact h_count
      · intro i hi
        simp only [answer_pending, pc_pending, Bool.false_eq_true, and_false, or_false]
        exact h_flags i hi
      · intro _; exact not_not.mp hf
      · simp only [answer_pending, pc_pending, Bool.false_eq_true, if_false, Nat.add_zero]
        exact h_log
      · intro hb; simp at hb
  | call_test =>
    simp only [point_step, hpc]
    have hlt := h_lt (by rw [hpc]; rfl)
    have hz := h_unset (by rw [hpc]; rfl)
    simp only [answer_pending, hpc, pc_pending, count_lag, Bool.false_eq_true, and_false,
      or_false, if_false, Nat.add_zero, Int.add_zero, add_zero] at h_count h_flags h_log
    have hnr : ¬ reported_done p.vars.tested p.vars.idx :=
      fun hr => (h_flags _ hlt).mp hr hz
    refine ⟨h_req, h_len, h_le, fun _ => hlt, ?_, ?_, ?_, ?_, ?_, ?_, ?_, ?_⟩
    · simp only [count_lag, add_zero]; exact h_count
    · show (p.vars.tested ++ [next_call answers p.vars]).map test_call.done
        = (List.range (p.vars.tested ++ [next_call answers p.vars]).length).map answers
      rw [List.map_append, List.length_append, List.length_singleton, List.range_succ,
        List.map_append, h_tie]
      rfl
    · intro c hc
      rcases List.mem_append.mp hc with hc | hc
      · exact h_calls c hc
      · simp only [List.mem_singleton] at hc
        subst hc
        exact ⟨hlt, by simp only [next_call, h_req]⟩
    · intro i
      show (done_calls i (p.vars.tested ++ [next_call answers p.vars])).length ≤ 1
      rw [done_calls_append]
      by_cases hii : (next_call answers p.vars).idx = i
      · have e : p.vars.idx = i := hii
        subst e
        rw [done_calls_nil_of_not_reported _ _ hnr]
        simp only [List.nil_append]
        split <;> simp
      · rw [if_neg (fun hc => hii hc.1), List.append_nil]
        exact h_once i
    · intro i hi
      show reported_done (p.vars.tested ++ [next_call answers p.vars]) i ↔ _
      rw [reported_done_append, h_flags i hi]
      simp only [answer_pending, pc_pending, decide_eq_true_eq]
      have e : (next_call answers p.vars).idx = p.vars.idx := rfl
      rw [e]
      constructor
      · rintro (h1 | ⟨h1, h2⟩)
        · exact Or.inl h1
        · exact Or.inr ⟨h1.symm, h2⟩
      · rintro (h1 | ⟨h1, h2⟩)
        · exact Or.inl h1
        · exact Or.inr ⟨h1.symm, h2⟩
    · intro _; exact hz
    · show count_done ((p.vars.tested ++ [next_call answers p.vars]).map test_call.done) = _
      rw [List.map_append, List.map_singleton, count_done_append, h_log]
      simp only [answer_pending, pc_pending, decide_eq_true_eq]
    · intro hb; simp at hb
  | if_done =>
    simp only [point_step, hpc]
    have hlt := h_lt (by rw [hpc]; rfl)
    have hz := h_unset (by rw [hpc]; rfl)
    simp only [answer_pending, hpc, pc_pending, count_lag, decide_eq_true_eq,
      Int.add_zero, add_zero] at h_count h_flags h_log
    by_cases hd : p.done ≠ 0
    · rw [if_pos hd]
      rw [if_pos hd] at h_log
      refine ⟨h_req, h_len, h_le, fun _ => hlt, ?_, h_tie, h_calls, h_once, ?_, ?_, ?_, ?_⟩
      · simp only [count_lag, add_zero]; exact h_count
      · intro i hi
        simp only [answer_pending, pc_pending, and_true]
        rw [h_flags i hi]
        simp only [ne_eq, hd, not_false_eq_true, and_true]
      · intro _; exact hz
      · simp only [answer_pending, pc_pending, if_true]
        exact h_log
      · intro hb; simp at hb
    · rw [if_neg hd]
      rw [if_neg hd, Nat.add_zero] at h_log
      have hd0 : p.done = 0 := not_not.mp hd
      refine ⟨h_req, h_len, h_le, fun _ => hlt, ?_, h_tie, h_calls, h_once, ?_, ?_, ?_, ?_⟩
      · simp only [count_lag, add_zero]; exact h_count
      · intro i hi
        simp only [answer_pending, pc_pending, Bool.false_eq_true, and_false, or_false]
        rw [h_flags i hi]
        simp only [ne_eq, hd0, not_true_eq_false, and_false, or_false]
      · intro hb; simp [pc_unset] at hb
      · simp only [answer_pending, pc_pending, Bool.false_eq_true, if_false, Nat.add_zero]
        exact h_log
      · intro hb; simp at hb
  | decrement =>
    simp only [point_step, hpc]
    have hlt := h_lt (by rw [hpc]; rfl)
    have hz := h_unset (by rw [hpc]; rfl)
    simp only [answer_pending, hpc, pc_pending, count_lag, and_true, if_true,
      Int.add_zero, add_zero] at h_count h_flags h_log
    refine ⟨h_req, h_len, h_le, fun _ => hlt, ?_, h_tie, h_calls, h_once, ?_, ?_, ?_, ?_⟩
    · simp only [count_lag]
      omega
    · intro i hi
      simp only [answer_pending, pc_pending, and_true]
      exact h_flags i hi
    · intro _; exact hz
    · simp only [answer_pending, pc_pending, if_true]
      exact h_log
    · intro hb; simp at hb
  | set_completed =>
    simp only [point_step, hpc]
    have hlt := h_lt (by rw [hpc]; rfl)
    have hz := h_unset (by rw [hpc]; rfl)
    simp only [answer_pending, hpc, pc_pending, count_lag, and_true, if_true]
      at h_count h_flags h_log
    have hlen : p.vars.idx < p.vars.req_completed.length := by rw [h_len]; exact hlt
    have hns := num_set_set _ _ hlen hz
    refine ⟨h_req, ?_, h_le, fun _ => hlt, ?_, h_tie, h_calls, h_once, ?_, ?_, ?_, ?_⟩
    · show (p.vars.req_completed.set p.vars.idx 1).length = NUM_REQUESTS
      rw [List.length_set]; exact h_len
    · simp only [count_lag, add_zero, hns]
      push_cast
      omega
    · intro i hi
      simp only [answer_pending, pc_pending, Bool.false_eq_true, and_false, or_false]
      rw [h_flags i hi]
      by_cases hii : p.vars.idx = i
      · subst hii
        rw [getD_set_same _ _ _ hlen]
        simp
      · rw [getD_set_other _ _ _ _ hii]
        constructor
        · rintro (h1 | h1)
          · exact h1
          · exact absurd h1.symm hii
        · intro h1; exact Or.inl h1
    · intro hb; simp [pc_unset] at hb
    · simp only [answer_pending, pc_pending, Bool.false_eq_true, if_false, Nat.add_zero, hns]
      exact h_log
    · intro hb; simp at hb
  | for_incr =>
    simp only [point_step, hpc]
    have hlt := h_lt (by rw [hpc]; rfl)
    simp only [answer_pending, hpc, pc_pending, count_lag, Bool.false_eq_true, and_false,
      or_false, if_false, Nat.add_zero, Int.add_zero, add_zero] at h_count h_flags h_log
    refine ⟨h_req, h_len, hlt, ?_, ?_, h_tie, h_calls, h_once, ?_, ?_, ?_, ?_⟩
    · intro hb; simp [pc_in_body] at hb
    · simp only [count_lag, add_zero]; exact h_count
    · intro i hi
      simp only [answer_pending, pc_pending, Bool.false_eq_true, and_false, or_false]
      exact h_flags i hi
    · intro hb; simp [pc_unset] at hb
    · simp only [answer_pending, pc_pending, Bool.false_eq_true, if_false, Nat.add_zero]
      exact h_log
    · intro hb; simp at hb
  | while_check =>
    simp only [point_step, hpc]
    simp only [answer_pending, hpc, pc_pending, count_lag, Bool.false_eq_true, and_false,
      or_false, if_false, Nat.add_zero, Int.add_zero, add_zero] at h_count h_flags h_log
    by_cases h0 : p.vars.inflight_reqs = 0
    · rw [if_pos h0]
      refine ⟨h_req, h_len, h_le, ?_, ?_, h_tie, h_calls, h_once, ?_, ?_, ?_, ?_⟩
      · intro hb; simp [pc_in_body] at hb
      · simp only [count_lag, add_zero]; exact h_count
      · intro i hi
        simp only [answer_pending, pc_pending, Bool.false_eq_true, and_false, or_false]
        exact h_flags i hi
      · intro hb; simp [pc_unset] at hb
      · simp only [answer_pending, pc_pending, Bool.false_eq_true, if_false, Nat.add_zero]
        exact h_log
      · intro _; exact h0
    · rw [if_neg h0]
      refine ⟨h_req, h_len, h_le, ?_, ?_, h_tie, h_calls, h_once, ?_, ?_, ?_, ?_⟩
      · intro hb; simp [pc_in_body] at hb
      · simp only [count_lag, add_zero]; exact h_count
      · intro i hi
        simp only [answer_pending, pc_pending, Bool.false_eq_true, and_false, or_false]
        exact h_flags i hi
      · intro hb; simp [pc_unset] at hb
      · simp only [answer_pending, pc_pending, Bool.false_eq_true, if_false, Nat.add_zero]
        exact h_log
      · intro hb; simp at hb
  | after_loop =>
    simp only [point_step, hpc]
    exact ⟨h_req, h_len, h_le, h_lt, h_count, h_tie, h_calls, h_once, h_flags, h_unset,
      h_log, h_exit⟩

theorem point_run_add (NUM_REQUESTS : Nat) (answers : Nat → Int) (p : loop_point) (a b : Nat) :
    point_run NUM_REQUESTS answers p (a + b)
      = point_run NUM_REQUESTS answers (point_run NUM_REQUESTS answers p a) b := by
  induction b with
  | zero => rfl
  | succ b ih =>
    rw [← Nat.add_assoc, point_run, ih]
    rfl

theorem point_inv_run (NUM_REQUESTS : Nat) (req : List Nat) (answers : Nat → Int)
    (p : loop_point) (h : point_inv NUM_REQUESTS req answers p) (n : Nat) :
    point_inv NUM_REQUESTS req answers (point_run NUM_REQUESTS answers p n) := by
  induction n with
  | zero => exact h
  | succ n ih => exact point_inv_step NUM_REQUESTS req answers _ ih

theorem point_run_after_loop (NUM_REQUESTS : Nat) (answers : Nat → Int) (p : loop_point)
    (h : p.pc = loop_pc.after_loop) (n : Nat) : point_run NUM_REQUESTS answers p n = p := by
  induction n with
  | zero => rfl
  | succ n ih =>
    rw [point_run, ih]
    simp only [point_step, h]

/-- From the test `idx < NUM_REQUESTS`, the loop reaches the next call of `test`
without touching the log, or the end of the pass with every entry from `idx` on set. -/
theorem scan_to_call (NUM_REQUESTS : Nat) (answers : Nat → Int) (m : Nat) :
    ∀ p : loop_point, p.pc = loop_pc.for_cond → NUM_REQUESTS - p.vars.idx ≤ m →
      ∃ n, ((point_run NUM_REQUESTS answers p n).pc = loop_pc.call_test ∧
          (point_run NUM_REQUESTS answers p n).vars.tested = p.vars.tested) ∨
        ((point_run NUM_REQUESTS answers p n).pc = loop_pc.while_check ∧
          (point_run NUM_REQUESTS answers p n).vars.tested = p.vars.tested ∧
          (point_run NUM_REQUESTS answers p n).vars.req_completed = p.vars.req_completed ∧
          (point_run NUM_REQUESTS answers p n).vars.inflight_reqs = p.vars.inflight_reqs ∧
          ∀ j, p.vars.idx ≤ j → j < NUM_REQUESTS → p.vars.req_completed.getD j 0 ≠ 0) := by
  induction m with
  | zero =>
    intro p hpc hm
    have hge : ¬ p.vars.idx < NUM_REQUESTS := by omega
    refine ⟨1, Or.inr ?_⟩
    have e : point_run NUM_REQUESTS answers p 1 = { p with pc := loop_pc.while_check } := by
      simp only [point_run, point_step, hpc, if_neg hge]
    rw [e]
    exact ⟨rfl, rfl, rfl, rfl, fun j h1 h2 => absurd (lt_of_le_of_lt h1 h2) hge⟩
  | succ m ih =>
    intro p hpc hm
    by_cases hlt : p.vars.idx < NUM_REQUESTS
    · by_cases hf : p.vars.req_completed.getD p.vars.idx 0 ≠ 0
      · have e : point_run NUM_REQUESTS answers p 3
            = { p with vars := { p.vars with idx := p.vars.idx + 1 }, pc := loop_pc.for_cond } := by
          simp only [point_run, point_step, hpc, if_pos hlt, if_pos hf]
        obtain ⟨n, hn⟩ := ih
          { p with vars := { p.vars with idx := p.vars.idx + 1 }, pc := loop_pc.for_cond }
          rfl (by show NUM_REQUESTS - (p.vars.idx + 1) ≤ m; omega)
        refine ⟨3 + n, ?_⟩
        rw [point_run_add, e]
        rcases hn with hn | ⟨h1, h2, h3, h4, h5⟩
        · exact Or.inl hn
        · refine Or.inr ⟨h1, h2, h3, h4, ?_⟩
          intro j hj1 hj2
          rcases Nat.eq_or_lt_of_le hj1 with e1 | e1
          · rw [← e1]; exact hf
          · exact h5 j e1 hj2
      · have e : point_run NUM_REQUESTS answers p 2 = { p with pc := loop_pc.call_test } := by
          simp only [point_run, point_step, hpc, if_pos hlt, if_neg hf]
        refine ⟨2, Or.inl ?_⟩
        rw [e]
        exact ⟨rfl, rfl⟩
    · refine ⟨1, Or.inr ?_⟩
      have e : point_run NUM_REQUESTS answers p 1 = { p with pc := loop_pc.while_check } := by
        simp only [point_run, point_step, hpc, if_neg hlt]
      rw [e]
      exact ⟨rfl, rfl, rfl, rfl, fun j h1 h2 => absurd (lt_of_le_of_lt h1 h2) hlt⟩

/-- At the end of a pass, entries all set mean nothing is in flight. -/
theorem inflight_zero_of_all_set (NUM_REQUESTS : Nat) (req : List Nat) (answers : Nat → Int)
    (p : loop_point) (h : point_inv NUM_REQUESTS req answers p)
    (hpc : p.pc = loop_pc.while_check)
    (hall : ∀ j, j < NUM_REQUESTS → p.vars.req_completed.getD j 0 ≠ 0) :
    p.vars.inflight_reqs = 0 := by
  have hfull : num_set p.vars.req_completed = p.vars.req_completed.length :=
    (num_set_full_iff _).mpr (fun i hi => hall i (by rw [← h.len]; exact hi))
  have hc := h.count
  rw [hpc, hfull, h.len] at hc
  simp only [count_lag] at hc
  omega

/-- From any point the loop reaches the statement after it, or the next call of `test`
with the log as it was. -/
theorem next_call_or_exit (NUM_REQUESTS : Nat) (req : List Nat) (answers : Nat → Int)
    (p : loop_point) (h : point_inv NUM_REQUESTS req answers p) :
    ∃ n, (point_run NUM_REQUESTS answers p n).pc = loop_pc.after_loop ∨
      ((point_run NUM_REQUESTS answers p n).pc = loop_pc.call_test ∧
        (point_run NUM_REQUESTS answers p n).vars.tested = p.vars.tested) := by
  -- the end of a pass
  have h_while : ∀ q : loop_point, point_inv NUM_REQUESTS req answers q →
      q.pc = loop_pc.while_check →
      ∃ n, (point_run NUM_REQUESTS answers q n).pc = loop_pc.after_loop ∨
        ((point_run NUM_REQUESTS answers q n).pc = loop_pc.call_test ∧
          (point_run NUM_REQUESTS answers q n).vars.tested = q.vars.tested) := by
    intro q hq hpc
    by_cases h0 : q.vars.inflight_reqs = 0
    · refine ⟨1, Or.inl ?_⟩
      simp only [point_run, point_step, hpc, if_pos h0]
    · have e : point_run NUM_REQUESTS answers q 2
          = { q with vars := { q.vars with idx := 0 }, pc := loop_pc.for_cond } := by
        simp only [point_run, point_step, hpc, if_neg h0]
      obtain ⟨n, hn⟩ := scan_to_call NUM_REQUESTS answers NUM_REQUESTS
        { q with vars := { q.vars with idx := 0 }, pc := loop_pc.for_cond } rfl
        (Nat.sub_le _ _)
      refine ⟨2 + n, ?_⟩
      rw [point_run_add, e]
      rcases hn with hn | ⟨h1, h2, h3, h4, h5⟩
      · exact Or.inr hn
      · exfalso
        have hinv := point_inv_run NUM_REQUESTS req answers q hq (2 + n)
        rw [point_run_add, e] at hinv
        have := inflight_zero_of_all_set NUM_REQUESTS req answers _ hinv h1
          (fun j hj => by rw [h3]; exact h5 j (Nat.zero_le _) hj)
        rw [h4] at this
        exact h0 this
  -- the head of the `for` loop
  have h_for : ∀ q : loop_point, point_inv NUM_REQUESTS req answers q →
      q.pc = loop_pc.for_cond →
      ∃ n, (point_run NUM_REQUESTS answers q n).pc = loop_pc.after_loop ∨
        ((point_run NUM_REQUESTS answers q n).pc = loop_pc.call_test ∧
          (point_run NUM_REQUESTS answers q n).vars.tested = q.vars.tested) := by
    intro q hq hpc
    obtain ⟨n, hn⟩ := scan_to_call NUM_REQUESTS answers NUM_REQUESTS q hpc (Nat.sub_le _ _)
    rcases hn with hn | ⟨h1, h2, -⟩
    · exact ⟨n, Or.inr hn⟩
    · obtain ⟨n2, hn2⟩ := h_while _ (point_inv_run NUM_REQUESTS req answers q hq n) h1
      refine ⟨n + n2, ?_⟩
      rw [point_run_add]
      rcases hn2 with hn2 | ⟨h3, h4⟩
      · exact Or.inl hn2
      · exact Or.inr ⟨h3, by rw [h4, h2]⟩
  -- any point: go to the head of the `for` loop first
  have h_via : ∀ k, (point_run NUM_REQUESTS answers p k).pc = loop_pc.for_cond →
      (point_run NUM_REQUESTS answers p k).vars.tested = p.vars.tested →
      ∃ n, (point_run NUM_REQUESTS answers p n).pc = loop_pc.after_loop ∨
        ((point_run NUM_REQUESTS answers p n).pc = loop_pc.call_test ∧
          (point_run NUM_REQUESTS answers p n).vars.tested = p.vars.tested) := by
    intro k hk1 hk2
    obtain ⟨n, hn⟩ := h_for _ (point_inv_run NUM_REQUESTS req answers p h k) hk1
    refine ⟨k + n, ?_⟩
    rw [point_run_add]
    rcases hn with hn | ⟨h3, h4⟩
    · exact Or.inl hn
    · exact Or.inr ⟨h3, by rw [h4, hk2]⟩
  cases hpc : p.pc with
  | for_init =>
    apply h_via 1 <;> simp only [point_run, point_step, hpc]
  | for_cond => exact h_for p h hpc
  | if_completed =>
    by_cases hf : p.vars.req_completed.getD p.vars.idx 0 ≠ 0
    · apply h_via 2 <;> simp only [point_run, point_step, hpc, if_pos hf]
    · refine ⟨1, Or.inr ?_⟩
      simp only [point_run, point_step, hpc, if_neg hf, and_self]
  | call_test => exact ⟨0, Or.inr ⟨hpc, rfl⟩⟩
  | if_done =>
    by_cases hd : p.done ≠ 0
    · apply h_via 4 <;> simp only [point_run, point_step, hpc, if_pos hd]
    · apply h_via 2 <;> simp only [point_run, point_step, hpc, if_neg hd]
  | decrement =>
    apply h_via 3 <;> simp only [point_run, point_step, hpc]
  | set_completed =>
    apply h_via 2 <;> simp only [point_run, point_step, hpc]
  | for_incr =>
    apply h_via 1 <;> simp only [point_run, point_step, hpc]
  | while_check => exact h_while p h hpc
  | after_loop => exact ⟨0, Or.inl hpc⟩

/-- At a call of `test` the request at `idx` has not been reported done, and fewer
than `NUM_REQUESTS` answers done have been given. -/
theorem at_call_test (NUM_REQUESTS : Nat) (req : List Nat) (answers : Nat → Int)
    (q : loop_point) (h : point_inv NUM_REQUESTS req answers q)
    (hpc : q.pc = loop_pc.call_test) :
    q.vars.idx < NUM_REQUESTS ∧ ¬ reported_done q.vars.tested q.vars.idx ∧
      done_count answers q.vars.tested.length < NUM_REQUESTS := by
  have hlt := h.idx_lt (by rw [hpc]; rfl)
  have hz := h.unset (by rw [hpc]; rfl)
  have hp : answer_pending q = false := by simp only [answer_pending, hpc, pc_pending]
  refine ⟨hlt, ?_, ?_⟩
  · intro hr
    rcases (h.flags _ hlt).mp hr with h1 | ⟨-, h2⟩
    · exact h1 hz
    · rw [hp] at h2; exact Bool.false_ne_true h2
  · have hl := h.log_count
    rw [hp, h.tie] at hl
    simp only [Bool.false_eq_true, if_false, Nat.add_zero] at hl
    have := num_set_lt_of_unset q.vars.req_completed q.vars.idx (by rw [h.len]; exact hlt) hz
    rw [h.len] at this
    unfold done_count
    omega

/-- Once every request has been reported done the loop is left. -/
theorem exits_when_all_reported (NUM_REQUESTS : Nat) (req : List Nat) (answers : Nat → Int)
    (p : loop_point) (h : point_inv NUM_REQUESTS req answers p)
    (hall : ∀ i, i < NUM_REQUESTS → reported_done p.vars.tested i) :
    ∃ n, (point_run NUM_REQUESTS answers p n).pc = loop_pc.after_loop := by
  obtain ⟨n, hn⟩ := next_call_or_exit NUM_REQUESTS req answers p h
  rcases hn with hn | ⟨h1, h2⟩
  · exact ⟨n, hn⟩
  · exfalso
    obtain ⟨hlt, hnr, -⟩ := at_call_test NUM_REQUESTS req answers _
      (point_inv_run NUM_REQUESTS req answers p h n) h1
    rw [h2] at hnr
    exact hnr (hall _ hlt)

/-- If `test` answers done at least `NUM_REQUESTS` times among its first `K` answers,
the loop is left. -/
theorem exits_when_enough_answers (NUM_REQUESTS : Nat) (req : List Nat) (answers : Nat → Int)
    (K : Nat) (hK : NUM_REQUESTS ≤ done_count answers K) (m : Nat) :
    ∀ p : loop_point, point_inv NUM_REQUESTS req answers p → K - p.vars.tested.length ≤ m →
      ∃ n, (point_run NUM_REQUESTS answers p n).pc = loop_pc.after_loop := by
  induction m with
  | zero =>
    intro p h hm
    obtain ⟨n, hn⟩ := next_call_or_exit NUM_REQUESTS req answers p h
    rcases hn with hn | ⟨h1, h2⟩
    · exact ⟨n, hn⟩
    · exfalso
      obtain ⟨-, -, hc⟩ := at_call_test NUM_REQUESTS req answers _
        (point_inv_run NUM_REQUESTS req answers p h n) h1
      rw [h2] at hc
      have := done_count_mono answers K p.vars.tested.length (by omega)
      omega
  | succ m ih =>
    intro p h hm
    obtain ⟨n, hn⟩ := next_call_or_exit NUM_REQUESTS req answers p h
    rcases hn with hn | ⟨h1, h2⟩
    · exact ⟨n, hn⟩
    · have hq := point_inv_run NUM_REQUESTS req answers p h n
      obtain ⟨-, -, hc⟩ := at_call_test NUM_REQUESTS req answers _ hq h1
      rw [h2] at hc
      have hlen : p.vars.tested.length < K := by
        by_contra hge
        have := done_count_mono answers K p.vars.tested.length (by omega)
        omega
      have hstep : (point_run NUM_REQUESTS answers p (n + 1)).vars.tested.length
          = p.vars.tested.length + 1 := by
        rw [point_run]
        simp only [point_step, h1, List.length_append, List.length_singleton, h2]
      obtain ⟨n2, hn2⟩ := ih _ (point_inv_run NUM_REQUESTS req answers p h (n + 1))
        (by rw [hstep]; omega)
      exact ⟨n + 1 + n2, by rw [point_run_add]; exact hn2⟩

/-- C9 (as stated, refuted): with one request and `test` answering done at once, after
six statements the loop stands between `inflight_reqs--` and `req_completed[0] = 1`:
`inflight_reqs` is 0 while no entry of `req_completed` is set, so it is not
`NUM_REQUESTS` minus the number of set entries. -/
theorem C9_counter_lags_inside_iteration :
    (point_run 1 (fun _ => 1) (point_init 0 1 (fun i => 64 + i) (fun i => 128 + i) 0) 6).pc
      = loop_pc.set_completed ∧
    (point_run 1 (fun _ => 1)
        (point_init 0 1 (fun i => 64 + i) (fun i => 128 + i) 0) 6).vars.inflight_reqs
      ≠ ((1 : Nat) : Int) - (num_set (point_run 1 (fun _ => 1)
          (point_init 0 1 (fun i => 64 + i) (fun i => 128 + i) 0) 6).vars.req_completed : Int) := by
  decide

/-- C9 (amended): in the completion loop, for every sequence of answers of `test` and
at every point `p` of the loop (after any number `t` of statements):
`inflight_reqs` equals `NUM_REQUESTS` minus the number of set entries of
`req_completed`, except between `inflight_reqs--` and `req_completed[idx] = 1`, where
it is one less; it is never negative; the `k`-th call of `test` is made on
`req[idx]` for an `idx < NUM_REQUESTS` and the value it logs is the `k`-th answer; each
request is reported done at most once, and its entry is set exactly when it was
(the request at `idx` between its answer and its assignment apart); every answer
done so far is counted once; the loop is left exactly at `if (inflight_reqs == 0)`
when every request has been reported done; after the loop every request has been
reported done, by exactly `NUM_REQUESTS` answers done; once every request has been
reported done the loop is left, and if `test` answers done `NUM_REQUESTS` times the
loop is left. -/
theorem C9_completion_loop_counts_once (rank : Int) (NUM_REQUESTS : Nat)
    (isend irecv : Nat → Nat) (answers : Nat → Int) (done0 : Int) (t : Nat) (p : loop_point)
    (hp : point_run NUM_REQUESTS answers (point_init rank NUM_REQUESTS isend irecv done0) t
      = p) :
    (p.pc ≠ loop_pc.set_completed →
      p.vars.inflight_reqs = (NUM_REQUESTS : Int) - (num_set p.vars.req_completed : Int)) ∧
    (p.pc = loop_pc.set_completed →
      p.vars.inflight_reqs = (NUM_REQUESTS : Int) - (num_set p.vars.req_completed : Int) - 1) ∧
    0 ≤ p.vars.inflight_reqs ∧
    (∀ k c, p.vars.tested.get? k = some c →
      c.done = answers k ∧ c.idx < NUM_REQUESTS ∧ c.request = p.vars.req.getD c.idx NULL) ∧
    (∀ i, (done_calls i p.vars.tested).length ≤ 1) ∧
    (∀ i, i < NUM_REQUESTS →
      (reported_done p.vars.tested i ↔
        (p.vars.req_completed.getD i 0 ≠ 0 ∨ (i = p.vars.idx ∧ answer_pending p = true)))) ∧
    done_count answers p.vars.tested.length
      = num_set p.vars.req_completed + (if answer_pending p = true then 1 else 0) ∧
    ((point_step NUM_REQUESTS answers p).pc = loop_pc.after_loop ↔
      (p.pc = loop_pc.after_loop ∨
        (p.pc = loop_pc.while_check ∧ ∀ i, i < NUM_REQUESTS → reported_done p.vars.tested i))) ∧
    (p.pc = loop_pc.after_loop →
      (∀ i, i < NUM_REQUESTS → reported_done p.vars.tested i) ∧ p.vars.inflight_reqs = 0 ∧
        done_count answers p.vars.tested.length = NUM_REQUESTS) ∧
    ((∀ i, i < NUM_REQUESTS → reported_done p.vars.tested i) →
      ∃ n, (point_run NUM_REQUESTS answers
        (point_init rank NUM_REQUESTS isend irecv done0) (t + n)).pc = loop_pc.after_loop) ∧
    ((∃ K, NUM_REQUESTS ≤ done_count answers K) →
      ∃ n, (point_run NUM_REQUESTS answers
        (point_init rank NUM_REQUESTS isend irecv done0) n).pc = loop_pc.after_loop) := by
  have h0 := point_inv_init rank NUM_REQUESTS isend irecv answers done0
  have h := point_inv_run NUM_REQUESTS _ answers _ h0 t
  rw [hp] at h
  have hle := num_set_le p.vars.req_completed
  rw [h.len] at hle
  have hc := h.count
  have hlog : done_count answers p.vars.tested.length
      = num_set p.vars.req_completed + (if answer_pending p = true then 1 else 0) := by
    have := h.log_count
    rw [h.tie] at this
    exact this
  -- at the end of a pass and after the loop: nothing in flight iff all reported done
  have hzero : answer_pending p = false →
      (p.vars.inflight_reqs + count_lag p.pc = 0 ↔
        ∀ i, i < NUM_REQUESTS → reported_done p.vars.tested i) := by
    intro hpend
    have hfull := num_set_full_iff p.vars.req_completed
    rw [h.len] at hfull
    constructor
    · intro hz i hi
      have : num_set p.vars.req_completed = NUM_REQUESTS := by omega
      exact (h.flags i hi).mpr (Or.inl (hfull.mp this i hi))
    · intro hall
      have : num_set p.vars.req_completed = NUM_REQUESTS := by
        apply hfull.mpr
        intro i hi
        rcases (h.flags i hi).mp (hall i hi) with h1 | ⟨-, h2⟩
        · exact h1
        · rw [hpend] at h2; exact absurd h2 Bool.false_ne_true
      omega
  refine ⟨?_, ?_, ?_, ?_, h.once, h.flags, hlog, ?_, ?_, ?_, ?_⟩
  · intro hne
    have : count_lag p.pc = 0 := by
      cases hpc : p.pc <;> first | rfl | exact absurd hpc hne
    omega
  · intro he
    rw [he] at hc
    simp only [count_lag] at hc
    omega
  · by_cases he : p.pc = loop_pc.set_completed
    · have hlt := h.idx_lt (by rw [he]; rfl)
      have hz := h.unset (by rw [he]; rfl)
      have := num_set_lt_of_unset p.vars.req_completed p.vars.idx (by rw [h.len]; exact hlt) hz
      rw [h.len] at this
      rw [he] at hc
      simp only [count_lag] at hc
      omega
    · have : count_lag p.pc = 0 := by
        cases hpc : p.pc <;> first | rfl | exact absurd hpc he
      omega
  · intro k c hk
    have hmem : c ∈ p.vars.tested := List.get?_mem hk
    have hcalls := h.calls c hmem
    refine ⟨?_, hcalls.1, by rw [h.req_eq]; exact hcalls.2⟩
    have hlt : k < p.vars.tested.length := by
      rw [List.get?_eq_getElem?] at hk
      exact (List.getElem?_eq_some_iff.mp hk).1
    have e := congrArg (fun l => l.get? k) h.tie
    simp only [List.get?_eq_getElem?, List.getElem?_map, List.getElem?_range hlt,
      Option.map_some'] at e
    rw [List.get?_eq_getElem?] at hk
    rw [hk] at e
    simpa using e
  · constructor
    · intro hs
      by_cases ha : p.pc = loop_pc.after_loop
      · exact Or.inl ha
      · right
        cases hpc : p.pc with
        | while_check =>
          refine ⟨rfl, ?_⟩
          have hpend : answer_pending p = false := by
            simp only [answer_pending, hpc, pc_pending]
          apply (hzero hpend).mp
          simp only [point_step, hpc] at hs
          by_cases hz : p.vars.inflight_reqs = 0
          · rw [hpc]; simp only [count_lag]; omega
          · rw [if_neg hz] at hs
            exact absurd hs (by simp)
        | after_loop => exact absurd hpc ha
        | for_init => simp only [point_step, hpc] at hs; exact absurd hs (by simp)
        | for_cond =>
          simp only [point_step, hpc] at hs
          split at hs <;> exact absurd hs (by simp)
        | if_completed =>
          simp only [point_step, hpc] at hs
          split at hs <;> exact absurd hs (by simp)
        | call_test => simp only [point_step, hpc] at hs; exact absurd hs (by simp)
        | if_done =>
          simp only [point_step, hpc] at hs
          split at hs <;> exact absurd hs (by simp)
        | decrement => simp only [point_step, hpc] at hs; exact absurd hs (by simp)
        | set_completed => simp only [point_step, hpc] at hs; exact absurd hs (by simp)
        | for_incr => simp only [point_step, hpc] at hs; exact absurd hs (by simp)
    · rintro (ha | ⟨hw, hall⟩)
      · simp only [point_step, ha]
      · have hpend : answer_pending p = false := by
          simp only [answer_pending, hw, pc_pending]
        have hz := (hzero hpend).mpr hall
        rw [hw] at hz
        simp only [count_lag, add_zero] at hz
        simp only [point_step, hw, if_pos hz]
  · intro ha
    have hpend : answer_pending p = false := by
      simp only [answer_pending, ha, pc_pending]
    have hz := h.exited ha
    have hall := (hzero hpend).mp (by rw [ha]; simp only [count_lag]; omega)
    refine ⟨hall, hz, ?_⟩
    rw [hlog, hpend]
    rw [ha] at hc
    simp only [count_lag] at hc
    simp only [Bool.false_eq_true, if_false]
    omega
  · intro hall
    obtain ⟨n, hn⟩ := exits_when_all_reported NUM_REQUESTS _ answers p h hall
    exact ⟨n, by rw [point_run_add, hp]; exact hn⟩
  · rintro ⟨K, hK⟩
    exact exits_when_enough_answers NUM_REQUESTS _ answers K hK K _ h0 (Nat.sub_le _ _)

/-- Witness for C9 (amended): one request, `test` answers done at once; after six
statements the loop stands at `req_completed[0] = 1` with `inflight_reqs` already 0. -/
theorem C9_completion_loop_counts_once_witness :
    point_run 1 (fun _ => 1) (point_init 0 1 (fun i => 64 + i) (fun i => 128 + i) 0) 6
      = { vars := { req := [64], req_completed := [0], inflight_reqs := 0, idx := 0,
                    tested := [{ idx := 0, request := 64, done := 1 }] },
          done := 1, pc := loop_pc.set_completed } ∧
    (0 : Int) = ((1 : Nat) : Int) - (num_set [0] : Int) - 1 :=
  ⟨by decide,
   (C9_completion_loop_counts_once 0 1 (fun i => 64 + i) (fun i => 128 + i) (fun _ => 1) 0 6
      { vars := { req := [64], req_completed := [0], inflight_reqs := 0, idx := 0,
                  tested := [{ idx := 0, request := 64, done := 1 }] },
        done := 1, pc := loop_pc.set_completed } (by decide)).2.1 rfl⟩

/-- The states of `loop_states` are the points of `point_run` at the test
`idx < NUM_REQUESTS` of the `for` loop: an iteration of `loop_step` is the run of the
statements of one iteration of the `for` loop, or of the end of a pass. -/
theorem loop_states_as_points (NUM_REQUESTS : Nat) (answers : Nat → Int) (s0 : test_state)
    (done0 : Int) (t : Nat) :
    ∀ s, loop_states NUM_REQUESTS answers s0 t = some s →
      ∃ n d, point_run NUM_REQUESTS answers { vars := s0, done := done0, pc := loop_pc.for_cond } n
        = { vars := s, done := d, pc := loop_pc.for_cond } := by
  induction t with
  | zero =>
    intro s hs
    simp only [loop_states, Option.some.injEq] at hs
    exact ⟨0, done0, by rw [← hs]; rfl⟩
  | succ t ih =>
    intro s hs
    rw [loop_states] at hs
    cases hprev : loop_states NUM_REQUESTS answers s0 t with
    | none => rw [hprev] at hs; simp at hs
    | some s1 =>
      rw [hprev] at hs
      simp only at hs
      by_cases he : loop_exits NUM_REQUESTS s1 = true
      · simp [he] at hs
      · simp only [he, Bool.false_eq_true, if_false, Option.some.injEq] at hs
        obtain ⟨n, d, hn⟩ := ih s1 hprev
        subst hs
        unfold loop_step
        by_cases hlt : s1.idx < NUM_REQUESTS
        · rw [if_pos hlt]
          by_cases hf : s1.req_completed.getD s1.idx 0 ≠ 0
          · refine ⟨n + 3, d, ?_⟩
            rw [point_run_add, hn, loop_body_skip answers s1 hf]
            simp only [point_run, point_step, if_pos hlt, if_pos hf]
          · have hz : s1.req_completed.getD s1.idx 0 = 0 := not_not.mp hf
            by_cases hd : answers s1.tested.length ≠ 0
            · refine ⟨n + 7, answers s1.tested.length, ?_⟩
              rw [point_run_add, hn, loop_body_done answers s1 hz hd]
              have hd' : (next_call answers s1).done ≠ 0 := hd
              simp only [point_run, point_step, if_pos hlt, if_neg hf, if_pos hd']
              rfl
            · have hd0 : answers s1.tested.length = 0 := not_not.mp hd
              refine ⟨n + 5, answers s1.tested.length, ?_⟩
              rw [point_run_add, hn, loop_body_pending answers s1 hz hd0]
              have hd' : ¬ (next_call answers s1).done ≠ 0 := hd
              simp only [point_run, point_step, if_pos hlt, if_neg hf, if_neg hd']
              rfl
        · rw [if_neg hlt]
          have h0 : ¬ s1.inflight_reqs = 0 := by
            intro hz
            apply he
            simp only [loop_exits, Bool.and_eq_true, decide_eq_true_eq]
            exact ⟨by omega, hz⟩
          refine ⟨n + 3, d, ?_⟩
          rw [point_run_add, hn]
          simp only [point_run, point_step, if_neg hlt, if_neg h0]

end NcclOfi
